import Mathlib

/-!
Verification development for the riichi mahjong hand organizer and score
calculator (`src/riichi_calc`).  The Rust sources are shallowly embedded:
pure functions become Lean functions, the mutable 34-slot `[u8; 34]` count
arrays become total functions `Nat → Nat` updated functionally, fallible
code returns `Except String`, and `panic!`/`expect` sites are modelled as
distinguished `Except.error` results (the theorems show they are not
reached on the relevant paths).

The repository's `types.rs` does not contain the tile/index bijections,
the `Hai::is_yaochuu` helper, the `input::UserInput` type or the
`yaku_checker` output type, although the other modules use them; those
few definitions are modelled from the specification and are marked
`Modelled from the spec:` in their doc comments.  Everything else is a
direct translation of the Rust sources.
-/

/-! ## Tile model (`types.rs`, module `tiles`) -/

/-- The three numbered suits (`Suhai` in `types.rs`). -/

inductive Suhai
  | Manzu
  | Pinzu
  | Souzu
deriving DecidableEq

/-- The four wind directions (`Kaze` in `types.rs`). -/

inductive Kaze
  | Ton
  | Nan
  | Shaa
  | Pei
deriving DecidableEq

/-- The three dragons (`Sangenpai` in `types.rs`). -/

inductive Sangenpai
  | Haku
  | Hatsu
  | Chun
deriving DecidableEq

/-- Any honor tile (`Jihai` in `types.rs`). -/

inductive Jihai
  | Kaze (k : Kaze)
  | Sangen (s : Sangenpai)
deriving DecidableEq

/-- A single mahjong tile (`Hai` in `types.rs`); the rank of a numbered
tile is a `u8` in Rust, embedded as `Nat`. -/

inductive Hai
  | Suhai (n : Nat) (s : Suhai)
  | Jihai (j : Jihai)
deriving DecidableEq

/-- A tile of the 34 legal kinds: numbered ranks run 1 to 9.
The spec (section 3) defines a tile as a (rank 1 to 9, suit) pair or one
of seven honor kinds. -/

def WFHai : Hai → Prop
  | .Suhai n _ => 1 ≤ n ∧ n ≤ 9
  | .Jihai _ => True

instance : DecidablePred WFHai := fun t => by
  cases t <;> simp only [WFHai] <;> infer_instance

/-- Modelled from the spec: the canonical tile-to-index bijection of
section 4.1, with the layout documented on `Tehai` in `types.rs`
(indices 0-8 Manzu 1-9, 9-17 Pinzu, 18-26 Souzu, 27-30 winds,
31-33 dragons).  The function `tile_to_index` itself is not present in
the `types.rs` source even though the other modules import it. -/

def tile_to_index : Hai → Nat
  | .Suhai n .Manzu => n - 1
  | .Suhai n .Pinzu => 9 + (n - 1)
  | .Suhai n .Souzu => 18 + (n - 1)
  | .Jihai (.Kaze .Ton) => 27
  | .Jihai (.Kaze .Nan) => 28
  | .Jihai (.Kaze .Shaa) => 29
  | .Jihai (.Kaze .Pei) => 30
  | .Jihai (.Sangen .Haku) => 31
  | .Jihai (.Sangen .Hatsu) => 32
  | .Jihai (.Sangen .Chun) => 33

/-- Modelled from the spec: the inverse index-to-tile bijection of
section 4.1.  In Rust an index outside 0-33 is a fatal programming
error; the Lean embedding is total and returns an arbitrary tile there
(no caller uses such an index on the verified paths). -/

def index_to_tile (i : Nat) : Hai :=
  if i < 9 then .Suhai (i + 1) .Manzu
  else if i < 18 then .Suhai (i - 9 + 1) .Pinzu
  else if i < 27 then .Suhai (i - 18 + 1) .Souzu
  else if i = 27 then .Jihai (.Kaze .Ton)
  else if i = 28 then .Jihai (.Kaze .Nan)
  else if i = 29 then .Jihai (.Kaze .Shaa)
  else if i = 30 then .Jihai (.Kaze .Pei)
  else if i = 31 then .Jihai (.Sangen .Haku)
  else if i = 32 then .Jihai (.Sangen .Hatsu)
  else .Jihai (.Sangen .Chun)

/-! ## Count vectors

The Rust `[u8; 34]` tile-count arrays are embedded as total functions
`Nat → Nat`; the code only ever reads and writes indices below 34. -/

/-- A tile-count vector (the Rust `[u8; 34]`). -/

abbrev Counts := Nat → Nat

/-- Functional update of one slot of a count vector (a Rust array write). -/

def updc (c : Counts) (i : Nat) (v : Nat) : Counts :=
  fun j => if j = i then v else c j

/-- Total number of tiles recorded in the 34 slots of a count vector. -/

def sumCounts (c : Counts) : Nat := ((List.range 34).map c).sum

/-- The master count vector built from the list of hand tiles
(the loop at the top of `organize_hand`). -/

def countsOfTiles (l : List Hai) : Counts :=
  l.foldl (fun c t => updc c (tile_to_index t) (c (tile_to_index t) + 1)) (fun _ => 0)

/-! ## Hand structures (`types.rs`, modules `hand`, `game`, `yaku`, `scoring`) -/

/-- Meld type (`MentsuType` in `types.rs`). -/

inductive MentsuType
  | Shuntsu
  | Koutsu
  | Kantsu
deriving DecidableEq

/-- A single meld (`Mentsu` in `types.rs`).  The Rust `tiles: [Hai; 4]`
array is embedded as four fields; for `Shuntsu`/`Koutsu` the fourth slot
is unused, exactly as in the source. -/

structure Mentsu where
  mentsu_type : MentsuType
  is_minchou : Bool
  tiles0 : Hai
  tiles1 : Hai
  tiles2 : Hai
  tiles3 : Hai
deriving DecidableEq

/-- Wait classification (`Machi` in `types.rs`). -/

inductive Machi
  | Ryanmen
  | Tanki
  | Penchan
  | Kanchan
  | Shanpon
  | KokushiIchimen
  | KokushiJusanmen
  | Kyuumen
deriving DecidableEq

/-- The Rust `[Mentsu; 4]` array of a completed hand. -/

abbrev Mentsu4 := { l : List Mentsu // l.length = 4 }

/-- A standard 4-meld, 1-pair winning hand (`AgariHand` in `types.rs`). -/

structure AgariHand where
  mentsu : Mentsu4
  atama : Hai × Hai
  agari_hai : Hai
  machi : Machi

/-- The two outcomes of the raw hand organizer
(`HandOrganization` in `types.rs`). -/

inductive HandOrganization
  | YonmentsuIchiatama (hand : AgariHand)
  | Irregular (counts : Counts) (agari_hai : Hai)

/-- The recognized structure of a winning hand
(`HandStructure` in `types.rs`).  The fixed-size `[(Hai, Hai); 7]` and
`[Hai; 13]` arrays of the Rust type are embedded as lists; no verified
code inspects those fields. -/

inductive HandStructure
  | YonmentsuIchiatama (hand : AgariHand)
  | Chiitoitsu (pairs : List (Hai × Hai)) (agari_hai : Hai) (machi : Machi)
  | KokushiMusou (tiles : List Hai) (atama : Hai × Hai) (agari_hai : Hai) (machi : Machi)
  | ChuurenPoutou (hand : AgariHand) (is_junsei : Bool)

/-- How the hand was won (`AgariType` in `types.rs`). -/

inductive AgariType
  | Tsumo
  | Ron
deriving DecidableEq

/-- Context of the winning player (`PlayerContext` in `types.rs`). -/

structure PlayerContext where
  jikaze : Kaze
  is_oya : Bool
  is_riichi : Bool
  is_daburu_riichi : Bool
  is_ippatsu : Bool
  is_menzen : Bool

/-- Context of the current round (`GameContext` in `types.rs`).  The
`num_akadora` field is read by the input validator and set by `main.rs`,
so it is included here even though the copy of `types.rs` in the
repository omits it. -/

structure GameContext where
  bakaze : Kaze
  kyoku : Nat
  honba : Nat
  riichi_bou : Nat
  dora_indicators : List Hai
  uradora_indicators : List Hai
  num_akadora : Nat
  is_tenhou : Bool
  is_chiihou : Bool
  is_renhou : Bool
  is_haitei : Bool
  is_houtei : Bool
  is_rinshan : Bool
  is_chankan : Bool

/-- All yaku (`Yaku` in `types.rs`). -/

inductive Yaku
  | Riichi
  | Ippatsu
  | MenzenTsumo
  | Pinfu
  | Iipeikou
  | HaiteiRaoyue
  | HouteiRaoyui
  | RinshanKaihou
  | Chankan
  | Tanyao
  | YakuhaiJikaze
  | YakuhaiBakaze
  | YakuhaiSangenpai
  | DaburuRiichi
  | Chiitoitsu
  | SanshokuDoujun
  | Ittsu
  | Chanta
  | Toitoi
  | Sanankou
  | SanshokuDoukou
  | Sankantsu
  | Shousangen
  | Honroutou
  | Ryanpeikou
  | Junchan
  | Honitsu
  | Chinitsu
  | Tenhou
  | Chiihou
  | Renhou
  | Daisangen
  | Suuankou
  | Daisuushi
  | Shousuushi
  | Tsuuiisou
  | Chinroutou
  | Ryuuiisou
  | Suukantsu
  | KokushiMusou
  | ChuurenPoutou
  | SuuankouTanki
  | KokushiMusouJusanmen
  | JunseiChuurenPoutou
  | Dora
  | UraDora
  | AkaDora
deriving DecidableEq

/-- Named point limits (`HandLimit` in `types.rs`). -/

inductive HandLimit
  | Mangan
  | Haneman
  | Baiman
  | Sanbaiman
  | Kazoeyakuman
  | Yakuman
  | DoubleYakuman
deriving DecidableEq

/-- Complete scoring result (`AgariResult` in `types.rs`).  The
`num_akadora` field is written by `calculate_score`, so it is included
even though the copy of `types.rs` in the repository omits it. -/

structure AgariResult where
  han : Nat
  fu : Nat
  yaku_list : List Yaku
  num_akadora : Nat
  limit_name : Option HandLimit
  base_points : Nat
  oya_payment : Nat
  ko_payment : Nat
  total_payment : Nat

/-- Modelled from the spec: one declared open call (section 4.2/4.3);
the `input` module holding the Rust type is not in the repository.  The
organizer reads exactly a meld type and a representative tile from each
open meld. -/

structure OpenMeld where
  mentsu_type : MentsuType
  representative_tile : Hai

/-- Modelled from the spec: the full declared hand plus context
(sections 4.2 and 6); the `input` module holding the Rust `UserInput`
type is not in the repository.  The fields are exactly those read by
`organize_hand`, the validators and `main.rs`. -/

structure UserInput where
  hand_tiles : List Hai
  winning_tile : Hai
  open_melds : List OpenMeld
  closed_kans : List Hai
  player_context : PlayerContext
  game_context : GameContext
  agari_type : AgariType

/-! ## Input validation (`raw_hand_organizer.rs`, module `input_validator`) -/

/-- `validate_game_state`: logical conflicts in declared game-state yaku. -/

def validate_game_state (p : PlayerContext) (g : GameContext) (a : AgariType)
    (input : UserInput) : Except String Unit :=
  if p.is_daburu_riichi ∧ p.is_riichi then
    .error "Invalid state: Cannot be both Riichi and Daburu Riichi."
  else if p.is_ippatsu ∧ ¬(p.is_riichi ∨ p.is_daburu_riichi) then
    .error "Invalid state: Ippatsu requires Riichi or Daburu Riichi."
  else if p.is_menzen ∧ ¬input.open_melds.isEmpty then
    .error "Invalid state: Hand is declared menzen but has open melds."
  else if g.is_haitei ∧ a = .Ron then
    .error "Invalid state: Haitei (last draw) cannot be a Ron win."
  else if g.is_houtei ∧ a = .Tsumo then
    .error "Invalid state: Houtei (last discard) cannot be a Tsumo win."
  else if g.is_haitei ∧ g.is_houtei then
    .error "Invalid state: Cannot be both Haitei and Houtei."
  else if g.is_rinshan ∧ a = .Ron then
    .error "Invalid state: Rinshan (kan draw) cannot be a Ron win."
  else if g.is_chankan ∧ a = .Tsumo then
    .error "Invalid state: Chankan (robbing kan) cannot be a Tsumo win."
  else if g.is_tenhou ∧ ¬p.is_oya then
    .error "Invalid state: Tenhou requires player to be Oya (dealer)."
  else if g.is_tenhou ∧ a ≠ .Tsumo then
    .error "Invalid state: Tenhou must be a Tsumo win."
  else if g.is_tenhou ∧ (¬input.open_melds.isEmpty ∨ ¬input.closed_kans.isEmpty) then
    .error "Invalid state: Tenhou cannot have any calls (no open melds or kans)."
  else if g.is_chiihou ∧ p.is_oya then
    .error "Invalid state: Chiihou requires player to be non-Oya."
  else if g.is_chiihou ∧ a ≠ .Tsumo then
    .error "Invalid state: Chiihou must be a Tsumo win."
  else if g.is_chiihou ∧ (¬input.open_melds.isEmpty ∨ ¬input.closed_kans.isEmpty) then
    .error "Invalid state: Chiihou cannot have any calls (no open melds or kans)."
  else if g.is_renhou ∧ a ≠ .Ron then
    .error "Invalid state: Renhou must be a Ron win."
  else .ok ()

/-- The total number of declared quads of an input
(the `total_kans` computation in `validate_hand_composition`). -/

def totalKans (input : UserInput) : Nat :=
  input.closed_kans.length
    + (input.open_melds.filter (fun m => decide (m.mentsu_type = MentsuType.Kantsu))).length

/-- Checks 3 to 5 of `validate_hand_composition` (winning-tile
membership, per-kind cap, akadora bounds), shared by both branches of
the tile-count check. -/

def validate_rest (input : UserInput) (master_counts : Counts) : Except String Unit :=
  if input.winning_tile ∉ input.hand_tiles then
    .error "Invalid input: Winning tile is not present in the list of hand tiles."
  else if (List.range 34).any (fun i => decide (4 < master_counts i)) then
    .error "Invalid hand: Contains 5 or more of a single tile type."
  else if master_counts (tile_to_index (.Suhai 5 .Manzu))
      + master_counts (tile_to_index (.Suhai 5 .Pinzu))
      + master_counts (tile_to_index (.Suhai 5 .Souzu))
      < input.game_context.num_akadora then
    .error "Invalid input: Number of akadora exceeds the total number of rank-5 tiles in the hand."
  else if 4 < input.game_context.num_akadora then
    .error "Invalid input: Number of akadora cannot be greater than 4."
  else .ok ()

/-- `validate_hand_composition`: tile-count and call-count checks. -/

def validate_hand_composition (input : UserInput) (master_counts : Counts) :
    Except String Unit :=
  if 4 < input.closed_kans.length + input.open_melds.length then
    .error "Invalid hand: More than 4 total melds (kans + open melds) declared."
  else if input.hand_tiles.length = 14 ∧ totalKans input = 0 then
    validate_rest input master_counts
  else if input.hand_tiles.length ≠ totalKans input * 4 + (4 - totalKans input) * 3 + 2 then
    .error "Invalid hand: Tile count does not match declared kans. (Expected 14 for 0 kans, 15 for 1 kan, 16 for 2, 17 for 3, 18 for 4)."
  else
    validate_rest input master_counts

/-- `validate_input`: game-state checks, then composition checks. -/

def validate_input (input : UserInput) (master_counts : Counts) : Except String Unit :=
  match validate_game_state input.player_context input.game_context input.agari_type input with
  | .error e => .error e
  | .ok _ => validate_hand_composition input master_counts

/-! ## The recursive meld search (`raw_hand_organizer.rs`, module of
`find_mentsu_recursive`)

The Rust function mutates a `[u8; 34]` count array and a `Vec<Mentsu>`
in place and returns a `bool`; the embedding passes the state explicitly
and returns the final state together with the flag.  The recursion is
given an explicit fuel (the Rust recursion terminates because every call
removes three tiles; the public wrapper supplies enough fuel for that
depth, see `find_mentsu_recursive`). -/

/-- The concealed triplet pushed by the search at index `i`
(the fourth slot repeats the tile, as in the source). -/

def koutsuM (i : Nat) : Mentsu :=
  ⟨.Koutsu, false, index_to_tile i, index_to_tile i, index_to_tile i, index_to_tile i⟩

/-- The concealed sequence pushed by the search at start index `i`
(the fourth slot repeats the third tile, as in the source). -/

def shuntsuM (i : Nat) : Mentsu :=
  ⟨.Shuntsu, false, index_to_tile i, index_to_tile (i + 1), index_to_tile (i + 2),
    index_to_tile (i + 2)⟩

/-- The scan loop `while i < 34 && counts[i] == 0 { i += 1 }`:
first index at or after `start` (within `rem` more slots) satisfying `p`. -/

def scanIdx (p : Nat → Bool) : Nat → Nat → Option Nat
  | _, 0 => none
  | start, rem + 1 => if p start then some start else scanIdx p (start + 1) rem

/-- First index below 34 with a nonzero count (`i` after the scan loop,
`none` standing for `i == 34`). -/

def scanNonzero (c : Counts) : Option Nat :=
  scanIdx (fun i => decide (c i ≠ 0)) 0 34

/-- The three sequential decrements `counts[i] -= 1; counts[i+1] -= 1;
counts[i+2] -= 1` of the sequence branch. -/

def seqSub (c : Counts) (i : Nat) : Counts :=
  let c1 := updc c i (c i - 1)
  let c2 := updc c1 (i + 1) (c1 (i + 1) - 1)
  updc c2 (i + 2) (c2 (i + 2) - 1)

/-- The three sequential increments restoring the sequence branch. -/

def seqAdd (c : Counts) (i : Nat) : Counts :=
  let c1 := updc c i (c i + 1)
  let c2 := updc c1 (i + 1) (c1 (i + 1) + 1)
  updc c2 (i + 2) (c2 (i + 2) + 1)

/-- `find_mentsu_recursive` with explicit fuel.  A faithful state-passing
translation of the Rust function: scan for the lowest nonzero kind, try a
triplet there (recursing, and on failure popping the meld and restoring
the three counts), then fall through to try a sequence (recursing, and on
failure popping and restoring), else fail. -/

def findMentsuFuel : Nat → Counts → List Mentsu → Bool × Counts × List Mentsu
  | 0, c, m => (false, c, m)
  | fuel + 1, c, m =>
    match scanNonzero c with
    | none => (true, c, m)
    | some i =>
      let afterK : Bool × Counts × List Mentsu :=
        if 3 ≤ c i then
          match findMentsuFuel fuel (updc c i (c i - 3)) (m ++ [koutsuM i]) with
          | (true, c2, m2) => (true, c2, m2)
          | (false, c2, m2) => (false, updc c2 i (c2 i + 3), m2.dropLast)
        else (false, c, m)
      match afterK with
      | (true, c2, m2) => (true, c2, m2)
      | (false, c3, m3) =>
        if i < 27 ∧ i % 9 < 7 ∧ 0 < c3 i ∧ 0 < c3 (i + 1) ∧ 0 < c3 (i + 2) then
          match findMentsuFuel fuel (seqSub c3 i) (m3 ++ [shuntsuM i]) with
          | (true, c2, m2) => (true, c2, m2)
          | (false, c2, m2) => (false, seqAdd c2 i, m2.dropLast)
        else (false, c3, m3)

/-- `find_mentsu_recursive` itself.  Each recursive call of the Rust
function removes exactly three tiles, so a fuel of one more than a third
of the tile total always suffices. -/

def find_mentsu_recursive (counts : Counts) (mentsu : List Mentsu) :
    Bool × Counts × List Mentsu :=
  findMentsuFuel (sumCounts counts / 3 + 1) counts mentsu

/-! ## Spec-level melds and partitions

`SMeld` is the combinatorial description of a concealed set as the spec
words it (section 3): a triplet of one kind, or a sequence of three
consecutive same-suit ranks not starting at rank 8 or 9 (in index terms:
a numbered start index whose position within its suit is below 7). -/

/-- A concealed set at the count-vector level: a triplet of kind `i`, or
a sequence starting at kind `i`. -/

inductive SMeld
  | tri (i : Nat)
  | seq (i : Nat)
deriving DecidableEq

/-- Validity of a spec-level set: triplets of any of the 34 kinds,
sequences only inside a numbered suit and not starting at rank 8 or 9. -/

def SMeld.wf : SMeld → Prop
  | .tri i => i < 34
  | .seq i => i < 27 ∧ i % 9 < 7

instance : DecidablePred SMeld.wf := fun s => by
  cases s <;> simp only [SMeld.wf] <;> infer_instance

/-- Count-vector contribution of one spec-level set. -/

def SMeld.cnt : SMeld → Counts
  | .tri i => fun j => if j = i then 3 else 0
  | .seq i => fun j =>
      (if j = i then 1 else 0) + (if j = i + 1 then 1 else 0) + (if j = i + 2 then 1 else 0)

/-- Count-vector contribution of a list of spec-level sets. -/

def mcounts (L : List SMeld) : Counts :=
  fun j => (L.map (fun s => s.cnt j)).sum

/-- The `Mentsu` record the search pushes for a given spec-level set. -/

def mentsuOfS : SMeld → Mentsu
  | .tri i => koutsuM i
  | .seq i => shuntsuM i

/-! ## Wait-type analysis (`raw_hand_organizer.rs`, module `wait_analyzer`) -/

/-- `mentsu_contains_tile`: a triplet or quad contains the tile if it is
the repeated tile; a sequence if it is any of the three positions. -/

def mentsu_contains_tile (m : Mentsu) (t : Hai) : Bool :=
  match m.mentsu_type with
  | .Koutsu | .Kantsu => decide (m.tiles0 = t)
  | .Shuntsu => decide (m.tiles0 = t) || decide (m.tiles1 = t) || decide (m.tiles2 = t)

/-- `determine_wait_type`.  The Rust function panics (`expect` /
`unreachable!`) when the winning tile is in neither the pair nor any
meld; those sites are modelled as `none`. -/

def determine_wait_type (mentsu : Mentsu4) (atama : Hai × Hai) (agari_hai : Hai) :
    Option Machi :=
  if agari_hai = atama.1 then some .Tanki
  else
    match mentsu.val.find? (fun m => mentsu_contains_tile m agari_hai) with
    | none => none
    | some wm =>
      match wm.mentsu_type with
      | .Koutsu | .Kantsu => some .Shanpon
      | .Shuntsu =>
        if agari_hai = wm.tiles1 then some .Kanchan
        else if agari_hai = wm.tiles0 then
          if tile_to_index wm.tiles2 % 9 = 8 then some .Penchan else some .Ryanmen
        else if agari_hai = wm.tiles2 then
          if tile_to_index wm.tiles0 % 9 = 0 then some .Penchan else some .Ryanmen
        else none

/-! ## The hand organizer (`raw_hand_organizer.rs`, `organize_hand`) -/

/-- Conversion of the collected meld vector into the Rust `[Mentsu; 4]`
(the `try_into` in `organize_hand`); `none` models the `expect` panic. -/

def toFour (l : List Mentsu) : Option Mentsu4 :=
  if h : l.length = 4 then some ⟨l, h⟩ else none

/-- The closed-kan meld pushed by step 3 of `organize_hand`. -/

def kanMentsu (t : Hai) : Mentsu := ⟨.Kantsu, false, t, t, t, t⟩

/-- The meld pushed for a declared open call by step 4 of `organize_hand`. -/

def openMentsuOf (om : OpenMeld) : Mentsu :=
  match om.mentsu_type with
  | .Koutsu => ⟨.Koutsu, true, om.representative_tile, om.representative_tile,
      om.representative_tile, om.representative_tile⟩
  | .Kantsu => ⟨.Kantsu, true, om.representative_tile, om.representative_tile,
      om.representative_tile, om.representative_tile⟩
  | .Shuntsu => ⟨.Shuntsu, true, om.representative_tile,
      index_to_tile (tile_to_index om.representative_tile + 1),
      index_to_tile (tile_to_index om.representative_tile + 2),
      index_to_tile (tile_to_index om.representative_tile + 2)⟩

/-- Step 3 of `organize_hand`: subtract declared closed kans from the
concealed counts, collecting their melds. -/

def processKans : List Hai → Counts → List Mentsu → Except String (Counts × List Mentsu)
  | [], c, m => .ok (c, m)
  | t :: rest, c, m =>
    let index := tile_to_index t
    if c index < 4 then
      .error "Invalid input: declared closed kan not present in hand tiles."
    else processKans rest (updc c index (c index - 4)) (m ++ [kanMentsu t])

/-- Step 4 of `organize_hand`: subtract declared open melds from the
concealed counts, collecting their melds. -/

def processOpenMelds : List OpenMeld → Counts → List Mentsu →
    Except String (Counts × List Mentsu)
  | [], c, m => .ok (c, m)
  | om :: rest, c, m =>
    let index := tile_to_index om.representative_tile
    match om.mentsu_type with
    | .Koutsu =>
      if c index < 3 then
        .error "Invalid input: declared Pon not present in hand tiles."
      else processOpenMelds rest (updc c index (c index - 3)) (m ++ [openMentsuOf om])
    | .Kantsu =>
      if c index < 4 then
        .error "Invalid input: declared open Kan not present in hand tiles."
      else processOpenMelds rest (updc c index (c index - 4)) (m ++ [openMentsuOf om])
    | .Shuntsu =>
      if 27 ≤ index ∨ 7 ≤ index % 9 then
        .error "Invalid representative tile for Chi (must be 1-7 of a suit)."
      else if c index < 1 ∨ c (index + 1) < 1 ∨ c (index + 2) < 1 then
        .error "Invalid input: declared Chi not present in hand tiles."
      else processOpenMelds rest (seqSub c index) (m ++ [openMentsuOf om])

/-- The search run for one pair hypothesis of Case B of `organize_hand`
(pair removed at kind `i`, search over the remainder from an empty meld
vector). -/

def searchResult (c : Counts) (i : Nat) : Bool × Counts × List Mentsu :=
  find_mentsu_recursive (updc c i (c i - 2)) []

/-- The `Ok(...)` value returned by Case B of `organize_hand` when the
pair hypothesis at kind `i` succeeds (including the modelled panics of
`try_into`/`expect`). -/

def mkPairResult (decl : List Mentsu) (agari_hai : Hai) (c : Counts) (i : Nat) :
    Except String HandOrganization :=
  match toFour (decl ++ (searchResult c i).2.2) with
  | some arr =>
    match determine_wait_type arr (index_to_tile i, index_to_tile i) agari_hai with
    | some machi =>
      .ok (.YonmentsuIchiatama
        ⟨arr, (index_to_tile i, index_to_tile i), agari_hai, machi⟩)
    | none => .error "Winning tile not in pair or melds. Invalid hand."
  | none => .error "Hand parsing logic error: final_mentsu length not 4"

/-- The Case B loop of `organize_hand`: try each kind holding at least
two copies as the pair, in increasing index order, returning the first
hypothesis whose search succeeds with exactly the needed meld count. -/

def tryPairs (c : Counts) (decl : List Mentsu) (needed : Nat) (agari_hai : Hai) :
    List Nat → Option (Except String HandOrganization)
  | [] => none
  | i :: rest =>
    if 2 ≤ c i ∧ (searchResult c i).1 = true ∧ (searchResult c i).2.2.length = needed
    then some (mkPairResult decl agari_hai c i)
    else tryPairs c decl needed agari_hai rest

/-- The Case A scan of `organize_hand`: first kind whose concealed count
is exactly 2 (the naked-wait pair). -/

def scanPair (c : Counts) : Option Nat :=
  scanIdx (fun i => decide (c i = 2)) 0 34

/-- Steps 5 onward of `organize_hand`, after validation and removal of
the declared calls: Case A (four known melds, scan for the pair), Case B
(pair hypotheses plus recursive search), and the Irregular fallback. -/

def organize_post (input : UserInput) (master : Counts) (c2 : Counts)
    (m2 : List Mentsu) : Except String HandOrganization :=
  let needed := 4 - m2.length
  let agari_hai := input.winning_tile
  let caseB : Except String HandOrganization :=
    match tryPairs c2 m2 needed agari_hai (List.range 34) with
    | some r => r
    | none => .ok (.Irregular master agari_hai)
  if needed = 0 then
    match scanPair c2 with
    | some i =>
      match toFour m2 with
      | some arr =>
        .ok (.YonmentsuIchiatama
          ⟨arr, (index_to_tile i, index_to_tile i), agari_hai, .Tanki⟩)
      | none => .error "Hand parsing logic error: final_mentsu length not 4"
    | none =>
      if input.hand_tiles.length = 14 then caseB
      else .error "Invalid hand: 4 open melds but no pair found."
  else caseB

/-- `organize_hand`: build the master counts, validate, subtract the
declared calls, then decompose (or fall back to `Irregular`). -/

def organize_hand (input : UserInput) : Except String HandOrganization :=
  match validate_input input (countsOfTiles input.hand_tiles) with
  | .error e => .error e
  | .ok _ =>
    match processKans input.closed_kans (countsOfTiles input.hand_tiles) [] with
    | .error e => .error e
    | .ok (c1, m1) =>
      match processOpenMelds input.open_melds c1 m1 with
      | .error e => .error e
      | .ok (c2, m2) => organize_post input (countsOfTiles input.hand_tiles) c2 m2

/-! ## Score calculation (`score_calculator.rs`) -/

/-- Modelled from the spec: the terminal-or-honor predicate of section
4.1 (rank 1, rank 9, or any honor).  The Rust method `Hai::is_yaochuu`
is used by `calculate_fu` but its definition is not in the repository
copy of `types.rs`. -/

def Hai.is_yaochuu : Hai → Bool
  | .Suhai n _ => decide (n = 1) || decide (n = 9)
  | .Jihai _ => true

/-- Modelled from the spec: the output of the external pattern
recognizer (sections 2 and 6): the recognized pattern list, a bonus-tile
count, and the decomposed hand it was computed from.  The Rust
`yaku_checker::YakuResult` type is not in the repository; these are
exactly the fields `calculate_score` reads. -/

structure YakuResult where
  hand_structure : HandStructure
  yaku_list : List Yaku
  num_akadora : Nat

/-- `get_han_value`: han of a single yaku, with kuisagari (open-hand
reduction) where applicable; yakuman yield 0 here (handled separately). -/

def get_han_value (yaku : Yaku) (is_menzen : Bool) : Nat :=
  match yaku with
  | .Riichi => 1
  | .Ippatsu => 1
  | .MenzenTsumo => 1
  | .Pinfu => 1
  | .Iipeikou => 1
  | .HaiteiRaoyue => 1
  | .HouteiRaoyui => 1
  | .RinshanKaihou => 1
  | .Chankan => 1
  | .Tanyao => 1
  | .YakuhaiJikaze => 1
  | .YakuhaiBakaze => 1
  | .YakuhaiSangenpai => 1
  | .DaburuRiichi => 2
  | .Chiitoitsu => 2
  | .Toitoi => 2
  | .Sanankou => 2
  | .SanshokuDoukou => 2
  | .Sankantsu => 2
  | .Shousangen => 2
  | .Honroutou => 2
  | .SanshokuDoujun => if is_menzen then 2 else 1
  | .Ittsu => if is_menzen then 2 else 1
  | .Chanta => if is_menzen then 2 else 1
  | .Ryanpeikou => 3
  | .Junchan => if is_menzen then 3 else 2
  | .Honitsu => if is_menzen then 3 else 2
  | .Chinitsu => if is_menzen then 6 else 5
  | .Dora => 1
  | .UraDora => 1
  | .AkaDora => 1
  | _ => 0

/-- `calculate_han`: total han of a yaku list. -/

def calculate_han (yaku_list : List Yaku) (is_menzen : Bool) : Nat :=
  (yaku_list.map (fun y => get_han_value y is_menzen)).sum

/-- `get_pair_fu`: fu of the pair (dragon pair, or prevalent and/or seat
wind, additively). -/

def get_pair_fu (tile : Hai) (player : PlayerContext) (game : GameContext) : Nat :=
  match tile with
  | .Jihai (.Sangen _) => 2
  | .Jihai (.Kaze k) =>
    (if k = game.bakaze then 2 else 0) + (if k = player.jikaze then 2 else 0)
  | _ => 0

/-- Fu of one meld (the eight-entry open/concealed simple/yaochuu table
of `calculate_fu`). -/

def mentsu_fu (mentsu : Mentsu) : Nat :=
  match mentsu.mentsu_type with
  | .Koutsu =>
    match mentsu.is_minchou, mentsu.tiles0.is_yaochuu with
    | true, false => 2
    | true, true => 4
    | false, false => 4
    | false, true => 8
  | .Kantsu =>
    match mentsu.is_minchou, mentsu.tiles0.is_yaochuu with
    | true, false => 8
    | true, true => 16
    | false, false => 16
    | false, true => 32
  | .Shuntsu => 0

/-- The fu accumulated by the standard path of `calculate_fu` before the
final rounding: base 20, agari-type fu, meld fu, pair fu, wait fu. -/

def fu_accum (hand : AgariHand) (player : PlayerContext) (game : GameContext)
    (agari_type : AgariType) : Nat :=
  20
    + (if agari_type = .Tsumo then 2 else if player.is_menzen then 10 else 0)
    + (hand.mentsu.val.map mentsu_fu).sum
    + get_pair_fu hand.atama.1 player game
    + (match hand.machi with
        | .Kanchan | .Penchan | .Tanki => 2
        | _ => 0)

/-- `calculate_fu`.  The Rust accumulator is a `u32` and the result is
cast to `u8`; the cast is embedded as the final `% 256` (the theorems
bound the accumulator below 256, so it never truncates). -/

def calculate_fu (hand_structure : HandStructure) (yaku_list : List Yaku)
    (player : PlayerContext) (game : GameContext) (agari_type : AgariType) : Nat :=
  if Yaku.Chiitoitsu ∈ yaku_list then 25
  else if Yaku.Pinfu ∈ yaku_list then
    if agari_type = .Tsumo then 20 else 30
  else
    match hand_structure with
    | .Chiitoitsu _ _ _ => 25
    | .KokushiMusou _ _ _ _ => 0
    | .YonmentsuIchiatama hand =>
      ((fu_accum hand player game agari_type + 9) / 10 * 10) % 256
    | .ChuurenPoutou hand _ =>
      ((fu_accum hand player game agari_type + 9) / 10 * 10) % 256

/-- `calculate_basic_points`: the tiered base-point computation. -/

def calculate_basic_points (han fu : Nat) : Nat × Option HandLimit :=
  if 13 ≤ han then (8000, some .Yakuman)
  else if 11 ≤ han then (6000, some .Sanbaiman)
  else if 8 ≤ han then (4000, some .Baiman)
  else if 6 ≤ han then (3000, some .Haneman)
  else if han = 5 then (2000, some .Mangan)
  else
    let basic_points := fu * 2 ^ (han + 2)
    if 2000 ≤ basic_points then (2000, some .Mangan) else (basic_points, none)

/-- `count_yakuman`: number of yakuman (doubles count as 2). -/

def count_yakuman (yaku_list : List Yaku) : Nat :=
  (yaku_list.map (fun y =>
    match y with
    | .SuuankouTanki => 2
    | .KokushiMusouJusanmen => 2
    | .JunseiChuurenPoutou => 2
    | .Tenhou => 1
    | .Chiihou => 1
    | .Renhou => 1
    | .Daisangen => 1
    | .Suuankou => 1
    | .Daisuushi => 1
    | .Shousuushi => 1
    | .Tsuuiisou => 1
    | .Chinroutou => 1
    | .Ryuuiisou => 1
    | .Suukantsu => 1
    | .KokushiMusou => 1
    | .ChuurenPoutou => 1
    | _ => 0)).sum

/-- `round_up_100`. -/

def round_up_100 (n : Nat) : Nat := (n + 99) / 100 * 100

/-- The four-way payment split shared by the yakuman and regular paths
of `calculate_score`: returns (base, oya, ko, total). -/

def payment_split (basic_points : Nat) (is_oya : Bool) (agari_type : AgariType)
    (tsumo_bonus ron_bonus : Nat) : Nat × Nat × Nat × Nat :=
  match is_oya, agari_type with
  | true, .Tsumo =>
    let p := round_up_100 (basic_points * 2)
    (p, p, 0, (p + tsumo_bonus) * 3)
  | false, .Tsumo =>
    let oya_p := round_up_100 (basic_points * 2)
    let ko_p := round_up_100 (basic_points * 1)
    (ko_p, oya_p, ko_p, (oya_p + tsumo_bonus) + (ko_p + tsumo_bonus) * 2)
  | true, .Ron =>
    let total := round_up_100 (basic_points * 6) + ron_bonus
    (total, 0, 0, total)
  | false, .Ron =>
    let total := round_up_100 (basic_points * 4) + ron_bonus
    (total, 0, 0, total)

/-- `calculate_score`: yakuman path or regular path, then payments. -/

def calculate_score (yaku_result : YakuResult) (player : PlayerContext)
    (game : GameContext) (agari_type : AgariType) : AgariResult :=
  let tsumo_bonus := game.honba * 100
  let ron_bonus := game.honba * 300
  let yaku_list := yaku_result.yaku_list
  let num_akadora := yaku_result.num_akadora
  let num_yakuman := count_yakuman yaku_list
  if 0 < num_yakuman then
    let han := 13 * num_yakuman
    let base_yakuman_points := 8000 * num_yakuman
    let q := payment_split base_yakuman_points player.is_oya agari_type
      tsumo_bonus ron_bonus
    { han := han, fu := 0, yaku_list := yaku_list, num_akadora := 0,
      limit_name := some HandLimit.Yakuman,
      base_points := q.1, oya_payment := q.2.1, ko_payment := q.2.2.1,
      total_payment := q.2.2.2 }
  else
    let han := calculate_han yaku_list player.is_menzen
    let fu := calculate_fu yaku_result.hand_structure yaku_list player game agari_type
    let bp := calculate_basic_points han fu
    let q := payment_split bp.1 player.is_oya agari_type tsumo_bonus ron_bonus
    { han := han, fu := fu, yaku_list := yaku_list, num_akadora := num_akadora,
      limit_name := bp.2,
      base_points := q.1, oya_payment := q.2.1, ko_payment := q.2.2.1,
      total_payment := q.2.2.2 }

/-! ## The example input of `main.rs` (`create_example_hand_input`) -/

/-- The example hand 234m 567m 345p 678p 44s of `main.rs`. -/

def example_hand_tiles : List Hai :=
  [.Suhai 2 .Manzu, .Suhai 3 .Manzu, .Suhai 4 .Manzu,
   .Suhai 5 .Manzu, .Suhai 6 .Manzu, .Suhai 7 .Manzu,
   .Suhai 3 .Pinzu, .Suhai 4 .Pinzu, .Suhai 5 .Pinzu,
   .Suhai 6 .Pinzu, .Suhai 7 .Pinzu, .Suhai 8 .Pinzu,
   .Suhai 4 .Souzu, .Suhai 4 .Souzu]

/-- `create_example_hand_input` from `main.rs`: the example hand, won by
self-draw on 8p by a non-dealer seated South in an East round with one
honba and one declared akadora. -/

def create_example_hand_input : UserInput :=
  { hand_tiles := example_hand_tiles
    winning_tile := .Suhai 8 .Pinzu
    open_melds := []
    closed_kans := []
    player_context :=
      { jikaze := .Nan, is_oya := false, is_riichi := true,
        is_daburu_riichi := false, is_ippatsu := false, is_menzen := true }
    game_context :=
      { bakaze := .Ton, kyoku := 1, honba := 1, riichi_bou := 1,
        dora_indicators := [.Suhai 2 .Pinzu],
        uradora_indicators := [.Suhai 6 .Manzu],
        num_akadora := 1,
        is_tenhou := false, is_chiihou := false, is_renhou := false,
        is_haitei := false, is_houtei := false, is_rinshan := false,
        is_chankan := false }
    agari_type := .Tsumo }

/-! ## Spec-side definitions used by the claims -/

/-- Rank of a tile (0 for honors); used to phrase the spec-side wait
classification in the claim's terms (rank 1 / rank 9). -/

def rankOf : Hai → Nat
  | .Suhai n _ => n
  | .Jihai _ => 0

/-- Suit of a numbered tile (`none` for honors). -/

def suitOf : Hai → Option Suhai
  | .Suhai _ s => some s
  | .Jihai _ => none

/-- A meld whose sequence data is genuine: if it is a `Shuntsu`, its
three tiles are consecutive same-suit ranks starting at rank 1 to 7 (the
only sequences a decomposed hand can contain). -/

def seqWF (m : Mentsu) : Prop :=
  m.mentsu_type = .Shuntsu →
    1 ≤ rankOf m.tiles0 ∧ rankOf m.tiles0 ≤ 7 ∧
    m.tiles1 = .Suhai (rankOf m.tiles0 + 1) ((suitOf m.tiles0).getD .Manzu) ∧
    m.tiles2 = .Suhai (rankOf m.tiles0 + 2) ((suitOf m.tiles0).getD .Manzu)

instance : DecidablePred seqWF := fun m => by
  unfold seqWF
  infer_instance

/-- The wait classification exactly as the claim words it: single-wait
first; triplet-pair for a triplet or quad; for a sequence, closed wait in
the middle, and at the ends, edge wait against rank 9 (lowest position)
or rank 1 (highest position), two-sided otherwise. -/

def wait_spec (mentsu : Mentsu4) (atama : Hai × Hai) (agari_hai : Hai) : Option Machi :=
  if agari_hai = atama.1 then some .Tanki
  else
    match mentsu.val.find? (fun m => mentsu_contains_tile m agari_hai) with
    | none => none
    | some wm =>
      match wm.mentsu_type with
      | .Koutsu | .Kantsu => some .Shanpon
      | .Shuntsu =>
        if agari_hai = wm.tiles1 then some .Kanchan
        else if agari_hai = wm.tiles0 then
          if rankOf wm.tiles2 = 9 then some .Penchan else some .Ryanmen
        else if agari_hai = wm.tiles2 then
          if rankOf wm.tiles0 = 1 then some .Penchan else some .Ryanmen
        else none

/-- The Regular decomposition `organize_hand` finds for the example hand
of `main.rs` (melds 234m, 567m, 345p, 678p, pair 44s, two-sided wait). -/

def example_agari_hand : AgariHand :=
  { mentsu := ⟨[⟨.Shuntsu, false, .Suhai 2 .Manzu, .Suhai 3 .Manzu, .Suhai 4 .Manzu, .Suhai 4 .Manzu⟩,
      ⟨.Shuntsu, false, .Suhai 5 .Manzu, .Suhai 6 .Manzu, .Suhai 7 .Manzu, .Suhai 7 .Manzu⟩,
      ⟨.Shuntsu, false, .Suhai 3 .Pinzu, .Suhai 4 .Pinzu, .Suhai 5 .Pinzu, .Suhai 5 .Pinzu⟩,
      ⟨.Shuntsu, false, .Suhai 6 .Pinzu, .Suhai 7 .Pinzu, .Suhai 8 .Pinzu, .Suhai 8 .Pinzu⟩], rfl⟩
    atama := (.Suhai 4 .Souzu, .Suhai 4 .Souzu)
    agari_hai := .Suhai 8 .Pinzu
    machi := .Ryanmen }

/-- Modelled from the spec: the pattern list the external recognizer
returns for the example scenario of section 8 (riichi, the no-points
pattern, concealed self-draw, all simples, and one occurrence each of
the three bonus-tile patterns); the `yaku_checker` module is not in the
repository.  Only the presence of the no-points pattern (Pinfu) matters
for the fu computation. -/

def example_yaku_list : List Yaku :=
  [.Riichi, .MenzenTsumo, .Pinfu, .Tanyao, .Dora, .UraDora, .AkaDora]

/-- The hand structure of the fu counterexample: a seven-pairs structure
reaching `calculate_fu` with a yaku list that does not mention the
seven-pairs pattern. -/

def cex_hand_structure : HandStructure :=
  .Chiitoitsu [] (.Jihai (.Kaze .Ton)) .Tanki

/-- A neutral player context for concrete fu computations. -/

def cex_player : PlayerContext :=
  { jikaze := .Ton, is_oya := false, is_riichi := false,
    is_daburu_riichi := false, is_ippatsu := false, is_menzen := true }

/-- A neutral game context for concrete fu computations. -/

def cex_game : GameContext :=
  { bakaze := .Ton, kyoku := 1, honba := 0, riichi_bou := 0,
    dora_indicators := [], uradora_indicators := [], num_akadora := 0,
    is_tenhou := false, is_chiihou := false, is_renhou := false,
    is_haitei := false, is_houtei := false, is_rinshan := false,
    is_chankan := false }

/-! ## Count contributions of concrete melds -/

/-- Count-vector contribution of a concrete meld record: 3 tiles for a
triplet, 4 for a quad, one each of three consecutive kinds for a
sequence (keyed by the representative first tile). -/

def cntM (m : Mentsu) : Counts :=
  match m.mentsu_type with
  | .Koutsu => fun j => if j = tile_to_index m.tiles0 then 3 else 0
  | .Kantsu => fun j => if j = tile_to_index m.tiles0 then 4 else 0
  | .Shuntsu => fun j =>
      (if j = tile_to_index m.tiles0 then 1 else 0)
      + (if j = tile_to_index m.tiles0 + 1 then 1 else 0)
      + (if j = tile_to_index m.tiles0 + 2 then 1 else 0)

/-- Count-vector contribution of a list of concrete melds. -/

def mcntList (L : List Mentsu) : Counts :=
  fun j => (L.map (fun m => cntM m j)).sum

/-- Well-formedness of a concrete meld as the organizer builds them:
triplets and quads repeat one legal tile in every slot; sequences carry
three consecutive kinds of one suit (start position below 7). -/

def WFMentsu (m : Mentsu) : Prop :=
  match m.mentsu_type with
  | .Koutsu | .Kantsu =>
      WFHai m.tiles0 ∧ m.tiles1 = m.tiles0 ∧ m.tiles2 = m.tiles0 ∧ m.tiles3 = m.tiles0
  | .Shuntsu =>
      WFHai m.tiles0 ∧ tile_to_index m.tiles0 < 27 ∧ tile_to_index m.tiles0 % 9 < 7 ∧
      m.tiles1 = index_to_tile (tile_to_index m.tiles0 + 1) ∧
      m.tiles2 = index_to_tile (tile_to_index m.tiles0 + 2)

/-- The tiles of a meld as a multiset: three tiles for a sequence or
triplet, four for a quad. -/

def meldTiles (m : Mentsu) : Multiset Hai :=
  match m.mentsu_type with
  | .Kantsu => m.tiles0 ::ₘ m.tiles1 ::ₘ m.tiles2 ::ₘ m.tiles3 ::ₘ 0
  | _ => m.tiles0 ::ₘ m.tiles1 ::ₘ m.tiles2 ::ₘ 0

/-! ## Claim C1: exhaustiveness of the decomposition -/

/-- The spec-side combinatorial property: the count vector is exactly a
pair at some kind plus four valid sets (sequences of three consecutive
same-suit ranks not starting at rank 8 or 9, or triplets). -/

def HasStdPartition (c : Counts) : Prop :=
  ∃ p, p < 34 ∧ ∃ L : List SMeld, L.length = 4 ∧ (∀ s ∈ L, s.wf) ∧
    ∀ j, c j = (if j = p then 2 else 0) + mcounts L j

/-! ## Theorems -/

theorem tile_to_index_lt (t : Hai) (h : WFHai t) : tile_to_index t < 34 := by
  match t with
  | .Suhai n s =>
    obtain ⟨h1, h2⟩ := h
    cases s <;> simp only [tile_to_index] <;> omega
  | .Jihai j =>
    match j with
    | .Kaze k => cases k <;> simp [tile_to_index]
    | .Sangen s => cases s <;> simp [tile_to_index]

theorem index_to_tile_index (i : Nat) (h : i < 34) :
    tile_to_index (index_to_tile i) = i := by
  interval_cases i <;> rfl

theorem tile_index_roundtrip (t : Hai) (h : WFHai t) :
    index_to_tile (tile_to_index t) = t := by
  match t with
  | .Suhai n s =>
    obtain ⟨h1, h2⟩ := h
    cases s <;> (interval_cases n <;> rfl)
  | .Jihai j =>
    match j with
    | .Kaze k => cases k <;> rfl
    | .Sangen s => cases s <;> rfl

theorem index_to_tile_wf (i : Nat) (h : i < 34) : WFHai (index_to_tile i) := by
  interval_cases i <;> decide

theorem tile_to_index_inj {a b : Hai} (ha : WFHai a) (hb : WFHai b)
    (h : tile_to_index a = tile_to_index b) : a = b := by
  have := tile_index_roundtrip a ha
  rw [h, tile_index_roundtrip b hb] at this
  exact this.symm

theorem updc_same (c : Counts) (i v : Nat) : updc c i v i = v := by
  simp [updc]

theorem updc_other (c : Counts) (i v j : Nat) (h : j ≠ i) : updc c i v j = c j := by
  simp [updc, h]

theorem updc_self (c : Counts) (i : Nat) : updc c i (c i) = c := by
  funext j
  by_cases h : j = i <;> simp [updc, h]

theorem sumCounts_eq_finset (c : Counts) :
    sumCounts c = ∑ j ∈ Finset.range 34, c j := by
  have h : ∀ n : Nat, ((List.range n).map c).sum = ∑ j ∈ Finset.range n, c j := by
    intro n
    induction n with
    | zero => simp
    | succ k ih => simp [List.range_succ, Finset.sum_range_succ, ih]
  exact h 34

theorem sumCounts_add (f g : Counts) :
    sumCounts (fun j => f j + g j) = sumCounts f + sumCounts g := by
  simp [sumCounts_eq_finset, Finset.sum_add_distrib]

theorem sumCounts_congr {f g : Counts} (h : ∀ j, j < 34 → f j = g j) :
    sumCounts f = sumCounts g := by
  simp only [sumCounts_eq_finset]
  exact Finset.sum_congr rfl fun j hj => h j (Finset.mem_range.mp hj)

theorem sumCounts_indicator (i v : Nat) (h : i < 34) :
    sumCounts (fun j => if j = i then v else 0) = v := by
  rw [sumCounts_eq_finset]
  rw [Finset.sum_ite_eq' (Finset.range 34) i (fun _ => v)]
  simp [Finset.mem_range.mpr h]

theorem countsOfTiles_apply (l : List Hai) (j : Nat) :
    countsOfTiles l j = (l.filter (fun t => decide (tile_to_index t = j))).length := by
  suffices h : ∀ (l : List Hai) (c : Counts) (j : Nat),
      l.foldl (fun c t => updc c (tile_to_index t) (c (tile_to_index t) + 1)) c j
        = c j + (l.filter (fun t => decide (tile_to_index t = j))).length by
    simpa using h l (fun _ => 0) j
  intro l
  induction l with
  | nil => intro c j; simp
  | cons t rest ih =>
    intro c j
    simp only [List.foldl_cons, List.filter_cons]
    by_cases ht : tile_to_index t = j
    · rw [ih]
      simp [updc, ht]
      omega
    · rw [ih]
      have : decide (tile_to_index t = j) = false := by simp [ht]
      simp [this, updc, ht]
      have hj : j ≠ tile_to_index t := fun h => ht h.symm
      simp [hj]

theorem countsOfTiles_hi (l : List Hai) (hwf : ∀ t ∈ l, WFHai t)
    (j : Nat) (hj : 34 ≤ j) : countsOfTiles l j = 0 := by
  rw [countsOfTiles_apply]
  rw [List.length_eq_zero, List.filter_eq_nil_iff]
  intro t ht
  have := tile_to_index_lt t (hwf t ht)
  simp only [decide_eq_true_eq]
  omega

theorem sumCounts_countsOfTiles (l : List Hai) (hwf : ∀ t ∈ l, WFHai t) :
    sumCounts (countsOfTiles l) = l.length := by
  induction l with
  | nil =>
    simp [sumCounts_eq_finset]
    intro j _
    simp [countsOfTiles_apply]
  | cons t rest ih =>
    have hwt : WFHai t := hwf t (List.mem_cons_self t rest)
    have hwr : ∀ x ∈ rest, WFHai x := fun x hx => hwf x (List.mem_cons_of_mem t hx)
    have hpt : ∀ j, countsOfTiles (t :: rest) j
        = countsOfTiles rest j + (if j = tile_to_index t then 1 else 0) := by
      intro j
      rw [countsOfTiles_apply, countsOfTiles_apply, List.filter_cons]
      by_cases h : tile_to_index t = j
      · simp [h]
      · have hj : j ≠ tile_to_index t := fun hh => h hh.symm
        simp [h, hj]
    calc sumCounts (countsOfTiles (t :: rest))
        = sumCounts (fun j => countsOfTiles rest j + (if j = tile_to_index t then 1 else 0)) := by
          exact sumCounts_congr (fun j _ => hpt j)
      _ = sumCounts (countsOfTiles rest)
            + sumCounts (fun j => if j = tile_to_index t then 1 else 0) :=
          sumCounts_add _ _
      _ = rest.length + 1 := by
          rw [ih hwr, sumCounts_indicator _ _ (tile_to_index_lt t hwt)]
      _ = (t :: rest).length := by simp [Nat.add_comm]

theorem scanIdx_some {p : Nat → Bool} :
    ∀ rem start j, scanIdx p start rem = some j →
      start ≤ j ∧ j < start + rem ∧ p j = true ∧ ∀ t, start ≤ t → t < j → p t = false := by
  intro rem
  induction rem with
  | zero => intro start j h; simp [scanIdx] at h
  | succ k ih =>
    intro start j h
    simp only [scanIdx] at h
    by_cases hp : p start
    · simp [hp] at h
      subst h
      exact ⟨Nat.le_refl _, by omega, hp, fun t h1 h2 => absurd h1 (by omega)⟩
    · simp [hp] at h
      obtain ⟨h1, h2, h3, h4⟩ := ih (start + 1) j h
      refine ⟨by omega, by omega, h3, fun t ht1 ht2 => ?_⟩
      by_cases he : t = start
      · subst he; simpa using hp
      · exact h4 t (by omega) ht2

theorem scanIdx_none {p : Nat → Bool} :
    ∀ rem start, scanIdx p start rem = none →
      ∀ t, start ≤ t → t < start + rem → p t = false := by
  intro rem
  induction rem with
  | zero => intro start _ t h1 h2; omega
  | succ k ih =>
    intro start h t h1 h2
    simp only [scanIdx] at h
    by_cases hp : p start
    · simp [hp] at h
    · simp [hp] at h
      by_cases he : t = start
      · subst he; simpa using hp
      · exact ih (start + 1) h t (by omega) (by omega)

theorem scanNonzero_some {c : Counts} {i : Nat} (h : scanNonzero c = some i) :
    i < 34 ∧ c i ≠ 0 ∧ ∀ t, t < i → c t = 0 := by
  obtain ⟨_, h2, h3, h4⟩ := scanIdx_some 34 0 i h
  refine ⟨by omega, by simpa using h3, fun t ht => ?_⟩
  have := h4 t (Nat.zero_le t) ht
  simpa using this

theorem scanNonzero_none {c : Counts} (h : scanNonzero c = none) :
    ∀ t, t < 34 → c t = 0 := by
  intro t ht
  have := scanIdx_none 34 0 h t (Nat.zero_le t) (by omega)
  simpa using this

theorem seqSub_apply (c : Counts) (i j : Nat) :
    seqSub c i j = if j = i then c i - 1 else if j = i + 1 then c (i + 1) - 1
      else if j = i + 2 then c (i + 2) - 1 else c j := by
  simp only [seqSub, updc]
  by_cases h2 : j = i + 2 <;> by_cases h1 : j = i + 1 <;> by_cases h0 : j = i <;>
    simp [h0, h1, h2]

theorem seqAdd_seqSub (c : Counts) (i : Nat)
    (h0 : 0 < c i) (h1 : 0 < c (i + 1)) (h2 : 0 < c (i + 2)) :
    seqAdd (seqSub c i) i = c := by
  funext j
  simp only [seqAdd, updc]
  by_cases e2 : j = i + 2 <;> by_cases e1 : j = i + 1 <;> by_cases e0 : j = i <;>
    simp [e0, e1, e2, seqSub_apply] <;> omega

/-- Backtracking invariant of the search: a failed call leaves both the
count vector and the meld vector exactly as it found them. -/

theorem findMentsuFuel_false :
    ∀ fuel c m, (findMentsuFuel fuel c m).1 = false →
      findMentsuFuel fuel c m = (false, c, m) := by
  intro fuel
  induction fuel with
  | zero => intro c m _; rfl
  | succ f ih =>
    intro c m hfalse
    rcases hscan : scanNonzero c with _ | i
    · simp only [findMentsuFuel, hscan] at hfalse
      exact Bool.noConfusion hfalse
    · simp only [findMentsuFuel, hscan] at hfalse ⊢
      by_cases h3 : 3 ≤ c i
      · rcases hrec : findMentsuFuel f (updc c i (c i - 3)) (m ++ [koutsuM i]) with ⟨b, c2, m2⟩
        cases b
        · have hres := ih _ _ (by rw [hrec])
          rw [hrec] at hres
          have hc2 : c2 = updc c i (c i - 3) := by
            have := congrArg (fun x => x.2.1) hres; simpa using this
          have hm2 : m2 = m ++ [koutsuM i] := by
            have := congrArg (fun x => x.2.2) hres; simpa using this
          have hback : updc c2 i (c2 i + 3) = c := by
            rw [hc2]
            funext j
            by_cases hj : j = i
            · subst hj; simp [updc]; omega
            · simp [updc, hj]
          have hpop : m2.dropLast = m := by rw [hm2]; simp
          simp only [if_pos h3, hrec, hback, hpop] at hfalse ⊢
          by_cases hcond : i < 27 ∧ i % 9 < 7 ∧ 0 < c i ∧ 0 < c (i + 1) ∧ 0 < c (i + 2)
          · rcases hrec2 : findMentsuFuel f (seqSub c i) (m ++ [shuntsuM i]) with ⟨b2, d2, n2⟩
            cases b2
            · have hres2 := ih _ _ (by rw [hrec2])
              rw [hrec2] at hres2
              have hd2 : d2 = seqSub c i := by
                have := congrArg (fun x => x.2.1) hres2; simpa using this
              have hn2 : n2 = m ++ [shuntsuM i] := by
                have := congrArg (fun x => x.2.2) hres2; simpa using this
              have hadd : seqAdd d2 i = c := by
                rw [hd2]; exact seqAdd_seqSub c i hcond.2.2.1 hcond.2.2.2.1 hcond.2.2.2.2
              have hpop2 : n2.dropLast = m := by rw [hn2]; simp
              simp only [if_pos hcond, hrec2, hadd, hpop2] at hfalse ⊢
            · simp only [if_pos hcond, hrec2] at hfalse
              exact Bool.noConfusion hfalse
          · simp only [if_neg hcond] at hfalse ⊢
        · simp only [if_pos h3, hrec] at hfalse
          exact Bool.noConfusion hfalse
      · simp only [if_neg h3] at hfalse ⊢
        by_cases hcond : i < 27 ∧ i % 9 < 7 ∧ 0 < c i ∧ 0 < c (i + 1) ∧ 0 < c (i + 2)
        · rcases hrec2 : findMentsuFuel f (seqSub c i) (m ++ [shuntsuM i]) with ⟨b2, d2, n2⟩
          cases b2
          · have hres2 := ih _ _ (by rw [hrec2])
            rw [hrec2] at hres2
            have hd2 : d2 = seqSub c i := by
              have := congrArg (fun x => x.2.1) hres2; simpa using this
            have hn2 : n2 = m ++ [shuntsuM i] := by
              have := congrArg (fun x => x.2.2) hres2; simpa using this
            have hadd : seqAdd d2 i = c := by
              rw [hd2]; exact seqAdd_seqSub c i hcond.2.2.1 hcond.2.2.2.1 hcond.2.2.2.2
            have hpop2 : n2.dropLast = m := by rw [hn2]; simp
            simp only [if_pos hcond, hrec2, hadd, hpop2] at hfalse ⊢
          · simp only [if_pos hcond, hrec2] at hfalse
            exact Bool.noConfusion hfalse
        · simp only [if_neg hcond] at hfalse ⊢

theorem mcounts_nil (j : Nat) : mcounts [] j = 0 := rfl

theorem mcounts_cons (s : SMeld) (L : List SMeld) (j : Nat) :
    mcounts (s :: L) j = s.cnt j + mcounts L j := by
  simp [mcounts]

theorem mcounts_perm {L L' : List SMeld} (h : L.Perm L') (j : Nat) :
    mcounts L j = mcounts L' j :=
  List.Perm.sum_eq (h.map _)

theorem mcounts_erase {L : List SMeld} {s : SMeld} (hs : s ∈ L) (j : Nat) :
    mcounts L j = s.cnt j + mcounts (L.erase s) j := by
  rw [mcounts_perm (List.perm_cons_erase hs) j, mcounts_cons]

theorem sumCounts_cnt (s : SMeld) (h : s.wf) : sumCounts s.cnt = 3 := by
  cases s with
  | tri i => exact sumCounts_indicator i 3 h
  | seq i =>
    obtain ⟨h1, _⟩ := h
    show sumCounts (fun j => (if j = i then 1 else 0) + (if j = i + 1 then 1 else 0)
      + (if j = i + 2 then 1 else 0)) = 3
    rw [sumCounts_add, sumCounts_add]
    rw [sumCounts_indicator i 1 (by omega), sumCounts_indicator (i + 1) 1 (by omega),
      sumCounts_indicator (i + 2) 1 (by omega)]

theorem sumCounts_mcounts (L : List SMeld) (h : ∀ s ∈ L, s.wf) :
    sumCounts (mcounts L) = 3 * L.length := by
  induction L with
  | nil =>
    have : ∀ j, j < 34 → mcounts [] j = (fun _ => 0) j := fun j _ => rfl
    rw [sumCounts_congr this]
    simp [sumCounts]
  | cons s rest ih =>
    have hs : SMeld.wf s := h s (List.mem_cons_self s rest)
    have hr : ∀ x ∈ rest, SMeld.wf x := fun x hx => h x (List.mem_cons_of_mem s hx)
    have : ∀ j, j < 34 → mcounts (s :: rest) j = (fun j => s.cnt j + mcounts rest j) j :=
      fun j _ => mcounts_cons s rest j
    rw [sumCounts_congr this, sumCounts_add, sumCounts_cnt s hs, ih hr]
    simp [List.length_cons, Nat.mul_add, Nat.add_comm]

theorem mcounts_hi (L : List SMeld) (h : ∀ s ∈ L, s.wf) (j : Nat) (hj : 34 ≤ j) :
    mcounts L j = 0 := by
  induction L with
  | nil => rfl
  | cons s rest ih =>
    have hs : SMeld.wf s := h s (List.mem_cons_self s rest)
    have hr : ∀ x ∈ rest, SMeld.wf x := fun x hx => h x (List.mem_cons_of_mem s hx)
    rw [mcounts_cons, ih hr]
    cases s with
    | tri i =>
      have : i < 34 := hs
      simp only [SMeld.cnt]
      have : j ≠ i := by omega
      simp [this]
    | seq i =>
      obtain ⟨h1, _⟩ := hs
      simp only [SMeld.cnt]
      have e0 : j ≠ i := by omega
      have e1 : j ≠ i + 1 := by omega
      have e2 : j ≠ i + 2 := by omega
      simp [e0, e1, e2]

theorem tri_cnt_upd (c : Counts) (i : Nat) (h3 : 3 ≤ c i) (j : Nat) :
    (SMeld.tri i).cnt j + updc c i (c i - 3) j = c j := by
  simp only [SMeld.cnt]
  by_cases e0 : j = i
  · subst e0; simp [updc]; omega
  · simp [updc, e0]

theorem seq_cnt_seqSub (c : Counts) (i : Nat)
    (h0 : 0 < c i) (h1 : 0 < c (i + 1)) (h2 : 0 < c (i + 2)) (j : Nat) :
    (SMeld.seq i).cnt j + seqSub c i j = c j := by
  simp only [SMeld.cnt]
  rw [seqSub_apply]
  by_cases e0 : j = i
  · subst e0
    have a1 : ¬(j = j + 1) := by omega
    have a2 : ¬(j = j + 2) := by omega
    simp [a1, a2]
    omega
  · by_cases e1 : j = i + 1
    · subst e1
      have a2 : ¬(i + 1 = i + 2) := by omega
      simp [e0, a2]
      omega
    · by_cases e2 : j = i + 2
      · subst e2
        simp [e0, e1]
        omega
      · simp [e0, e1, e2]

/-- Soundness of the search: a successful run consumes exactly a
well-formed list of concealed sets, appends precisely their `Mentsu`
records, and leaves all 34 slots empty. -/

theorem findMentsuFuel_true :
    ∀ fuel c m cf mf, findMentsuFuel fuel c m = (true, cf, mf) →
      ∃ L : List SMeld, (∀ s ∈ L, s.wf) ∧ mf = m ++ L.map mentsuOfS ∧
        (∀ j, c j = mcounts L j + cf j) ∧ (∀ j, j < 34 → cf j = 0) := by
  intro fuel
  induction fuel with
  | zero => intro c m cf mf h; simp [findMentsuFuel] at h
  | succ f ih =>
    intro c m cf mf h
    rcases hscan : scanNonzero c with _ | i
    · simp only [findMentsuFuel, hscan] at h
      obtain ⟨h1, h2⟩ : c = cf ∧ m = mf := by
        refine ⟨?_, ?_⟩
        · have := congrArg (fun x => x.2.1) h; simpa using this
        · have := congrArg (fun x => x.2.2) h; simpa using this
      subst h1; subst h2
      exact ⟨[], by simp, by simp, fun j => by simp [mcounts_nil],
        fun j hj => (scanNonzero_none hscan j hj).symm ▸ rfl⟩
    · obtain ⟨hi34, hine, _⟩ := scanNonzero_some hscan
      simp only [findMentsuFuel, hscan] at h
      by_cases h3 : 3 ≤ c i
      · rcases hrec : findMentsuFuel f (updc c i (c i - 3)) (m ++ [koutsuM i]) with ⟨b, c2, m2⟩
        cases b
        · -- triplet branch failed and was restored; the sequence branch succeeded
          have hres := findMentsuFuel_false f _ _ (by rw [hrec])
          rw [hrec] at hres
          have hc2 : c2 = updc c i (c i - 3) := by
            have := congrArg (fun x => x.2.1) hres; simpa using this
          have hm2 : m2 = m ++ [koutsuM i] := by
            have := congrArg (fun x => x.2.2) hres; simpa using this
          have hback : updc c2 i (c2 i + 3) = c := by
            rw [hc2]
            funext j
            by_cases hj : j = i
            · subst hj; simp [updc]; omega
            · simp [updc, hj]
          have hpop : m2.dropLast = m := by rw [hm2]; simp
          simp only [if_pos h3, hrec, hback, hpop] at h
          by_cases hcond : i < 27 ∧ i % 9 < 7 ∧ 0 < c i ∧ 0 < c (i + 1) ∧ 0 < c (i + 2)
          · rcases hrec2 : findMentsuFuel f (seqSub c i) (m ++ [shuntsuM i]) with ⟨b2, d2, n2⟩
            cases b2
            · simp only [if_pos hcond, hrec2] at h
              simp at h
            · simp only [if_pos hcond, hrec2] at h
              obtain ⟨hcf, hmf⟩ : d2 = cf ∧ n2 = mf := by
                refine ⟨?_, ?_⟩
                · have := congrArg (fun x => x.2.1) h; simpa using this
                · have := congrArg (fun x => x.2.2) h; simpa using this
              subst hcf; subst hmf
              obtain ⟨L, hLwf, hLm, hLc, hLz⟩ := ih _ _ _ _ hrec2
              refine ⟨.seq i :: L, ?_, ?_, ?_, hLz⟩
              · intro s hs
                rcases List.mem_cons.mp hs with hs | hs
                · subst hs; exact ⟨hcond.1, hcond.2.1⟩
                · exact hLwf s hs
              · rw [hLm]; simp [mentsuOfS]
              · intro j
                have hseq := hLc j
                have hkey := seq_cnt_seqSub c i hcond.2.2.1 hcond.2.2.2.1 hcond.2.2.2.2 j
                rw [mcounts_cons]
                omega
          · simp only [if_neg hcond] at h
            simp at h
        · -- triplet branch succeeded
          simp only [if_pos h3, hrec] at h
          obtain ⟨hcf, hmf⟩ : c2 = cf ∧ m2 = mf := by
            refine ⟨?_, ?_⟩
            · have := congrArg (fun x => x.2.1) h; simpa using this
            · have := congrArg (fun x => x.2.2) h; simpa using this
          subst hcf; subst hmf
          obtain ⟨L, hLwf, hLm, hLc, hLz⟩ := ih _ _ _ _ hrec
          refine ⟨.tri i :: L, ?_, ?_, ?_, hLz⟩
          · intro s hs
            rcases List.mem_cons.mp hs with hs | hs
            · subst hs; exact hi34
            · exact hLwf s hs
          · rw [hLm]; simp [mentsuOfS]
          · intro j
            have htri := hLc j
            have hkey := tri_cnt_upd c i h3 j
            rw [mcounts_cons]
            omega
      · -- no triplet possible; only the sequence branch can have succeeded
        simp only [if_neg h3] at h
        by_cases hcond : i < 27 ∧ i % 9 < 7 ∧ 0 < c i ∧ 0 < c (i + 1) ∧ 0 < c (i + 2)
        · rcases hrec2 : findMentsuFuel f (seqSub c i) (m ++ [shuntsuM i]) with ⟨b2, d2, n2⟩
          cases b2
          · simp only [if_pos hcond, hrec2] at h
            simp at h
          · simp only [if_pos hcond, hrec2] at h
            obtain ⟨hcf, hmf⟩ : d2 = cf ∧ n2 = mf := by
              refine ⟨?_, ?_⟩
              · have := congrArg (fun x => x.2.1) h; simpa using this
              · have := congrArg (fun x => x.2.2) h; simpa using this
            subst hcf; subst hmf
            obtain ⟨L, hLwf, hLm, hLc, hLz⟩ := ih _ _ _ _ hrec2
            refine ⟨.seq i :: L, ?_, ?_, ?_, hLz⟩
            · intro s hs
              rcases List.mem_cons.mp hs with hs | hs
              · subst hs; exact ⟨hcond.1, hcond.2.1⟩
              · exact hLwf s hs
            · rw [hLm]; simp [mentsuOfS]
            · intro j
              have hseq := hLc j
              have hkey := seq_cnt_seqSub c i hcond.2.2.1 hcond.2.2.2.1 hcond.2.2.2.2 j
              rw [mcounts_cons]
              omega
        · simp only [if_neg hcond] at h
          simp at h

theorem mcounts_pos_mem {L : List SMeld} {j : Nat} (h : mcounts L j ≠ 0) :
    ∃ s ∈ L, s.cnt j ≠ 0 := by
  induction L with
  | nil => exact absurd rfl h
  | cons s rest ih =>
    rw [mcounts_cons] at h
    by_cases hs : s.cnt j = 0
    · rw [hs, Nat.zero_add] at h
      obtain ⟨x, hx1, hx2⟩ := ih h
      exact ⟨x, List.mem_cons_of_mem s hx1, hx2⟩
    · exact ⟨s, List.mem_cons_self s rest, hs⟩

theorem mcounts_ge_mem {L : List SMeld} {s : SMeld} (hs : s ∈ L) (j : Nat) :
    s.cnt j ≤ mcounts L j := by
  rw [mcounts_erase hs j]
  omega

/-- Completeness of the search: whenever the count vector is exactly the
contribution of some well-formed list of concealed sets, the search
succeeds (given enough fuel). -/

theorem findMentsuFuel_complete :
    ∀ fuel (L : List SMeld) (c : Counts) (m : List Mentsu),
      (∀ s ∈ L, s.wf) → (∀ j, c j = mcounts L j) → L.length < fuel →
      (findMentsuFuel fuel c m).1 = true := by
  intro fuel
  induction fuel with
  | zero => intro L c m _ _ hlen; omega
  | succ f ih =>
    intro L c m hwf hpart hlen
    rcases hscan : scanNonzero c with _ | i
    · simp [findMentsuFuel, hscan]
    · obtain ⟨hi34, hine, hmin⟩ := scanNonzero_some hscan
      -- the sets covering the lowest occupied kind start exactly there
      have hcover : SMeld.tri i ∈ L ∨ SMeld.seq i ∈ L := by
        have hmne : mcounts L i ≠ 0 := by rw [← hpart i]; exact hine
        obtain ⟨s, hsL, hsc⟩ := mcounts_pos_mem hmne
        cases s with
        | tri p =>
          left
          have hp : p = i := by
            by_contra hne
            have : ¬(i = p) := fun h => hne h.symm
            simp [SMeld.cnt, this] at hsc
          rw [← hp]; exact hsL
        | seq p =>
          right
          have hple : p ≤ i := by
            by_contra hgt
            have e0 : ¬(i = p) := by omega
            have e1 : ¬(i = p + 1) := by omega
            have e2 : ¬(i = p + 2) := by omega
            simp [SMeld.cnt, e0, e1, e2] at hsc
          have hp : p = i := by
            by_contra hne
            have hplt : p < i := by omega
            have hcp : c p = 0 := hmin p hplt
            have hge : (SMeld.seq p).cnt p ≤ mcounts L p := mcounts_ge_mem hsL p
            have : (SMeld.seq p).cnt p = 1 + 0 + 0 := by
              have e1 : ¬(p = p + 1) := by omega
              have e2 : ¬(p = p + 2) := by omega
              simp [SMeld.cnt, e1, e2]
            rw [this] at hge
            rw [hpart p] at hcp
            omega
          rw [← hp]; exact hsL
      by_cases htri : SMeld.tri i ∈ L
      · -- a triplet of kind i is available: the triplet branch recursion succeeds
        have hge3 : 3 ≤ c i := by
          have := mcounts_ge_mem htri i
          have hc : (SMeld.tri i).cnt i = 3 := by simp [SMeld.cnt]
          rw [hc] at this
          rw [hpart i]
          omega
        have hpart' : ∀ j, updc c i (c i - 3) j = mcounts (L.erase (.tri i)) j := by
          intro j
          have he := mcounts_erase htri j
          by_cases hj : j = i
          · subst hj
            rw [updc_same]
            have hc : (SMeld.tri j).cnt j = 3 := by simp [SMeld.cnt]
            rw [hpart j, he, hc]
            omega
          · rw [updc_other _ _ _ _ hj]
            have hc : (SMeld.tri i).cnt j = 0 := by simp [SMeld.cnt, hj]
            rw [hpart j, he, hc]
            omega
        have hwf' : ∀ s ∈ L.erase (.tri i), s.wf :=
          fun s hs => hwf s (List.mem_of_mem_erase hs)
        have hlen' : (L.erase (.tri i)).length < f := by
          rw [List.length_erase_of_mem htri]
          have : 1 ≤ L.length := List.length_pos.mpr (List.ne_nil_of_mem htri)
          omega
        have hrec1 := ih (L.erase (.tri i)) (updc c i (c i - 3)) (m ++ [koutsuM i])
          hwf' (fun j => hpart' j) hlen'
        simp only [findMentsuFuel, hscan, if_pos hge3]
        rcases hrec : findMentsuFuel f (updc c i (c i - 3)) (m ++ [koutsuM i]) with ⟨b, c2, m2⟩
        rw [hrec] at hrec1
        simp at hrec1
        subst hrec1
        simp
      · -- no triplet of kind i in the partition: a sequence starts at i
        have hseqm : SMeld.seq i ∈ L := hcover.resolve_left htri
        obtain ⟨hp27, hp9⟩ := hwf _ hseqm
        have hge1 : 0 < c i := Nat.pos_of_ne_zero hine
        have hge1' : 0 < c (i + 1) := by
          have := mcounts_ge_mem hseqm (i + 1)
          have hc : (SMeld.seq i).cnt (i + 1) = 1 := by
            have e0 : ¬(i + 1 = i) := by omega
            have e2 : ¬(i + 1 = i + 2) := by omega
            simp [SMeld.cnt, e0, e2]
          rw [hc] at this
          rw [hpart (i + 1)]
          omega
        have hge2' : 0 < c (i + 2) := by
          have := mcounts_ge_mem hseqm (i + 2)
          have hc : (SMeld.seq i).cnt (i + 2) = 1 := by
            have e0 : ¬(i + 2 = i) := by omega
            have e1 : ¬(i + 2 = i + 1) := by omega
            simp [SMeld.cnt, e0, e1]
          rw [hc] at this
          rw [hpart (i + 2)]
          omega
        have hcond : i < 27 ∧ i % 9 < 7 ∧ 0 < c i ∧ 0 < c (i + 1) ∧ 0 < c (i + 2) :=
          ⟨hp27, hp9, hge1, hge1', hge2'⟩
        have hpart' : ∀ j, seqSub c i j = mcounts (L.erase (.seq i)) j := by
          intro j
          have he := mcounts_erase hseqm j
          have hkey := seq_cnt_seqSub c i hge1 hge1' hge2' j
          have := hpart j
          omega
        have hwf' : ∀ s ∈ L.erase (.seq i), s.wf :=
          fun s hs => hwf s (List.mem_of_mem_erase hs)
        have hlen' : (L.erase (.seq i)).length < f := by
          rw [List.length_erase_of_mem hseqm]
          have : 1 ≤ L.length := List.length_pos.mpr (List.ne_nil_of_mem hseqm)
          omega
        have hrec2 := ih (L.erase (.seq i)) (seqSub c i) (m ++ [shuntsuM i])
          hwf' (fun j => hpart' j) hlen'
        by_cases h3 : 3 ≤ c i
        · simp only [findMentsuFuel, hscan, if_pos h3]
          rcases hrecA : findMentsuFuel f (updc c i (c i - 3)) (m ++ [koutsuM i]) with ⟨b, c2, m2⟩
          cases b
          · -- the speculative triplet failed; after the restore the sequence branch runs
            have hres := findMentsuFuel_false f _ _ (by rw [hrecA])
            rw [hrecA] at hres
            have hc2 : c2 = updc c i (c i - 3) := by
              have := congrArg (fun x => x.2.1) hres; simpa using this
            have hm2 : m2 = m ++ [koutsuM i] := by
              have := congrArg (fun x => x.2.2) hres; simpa using this
            have hback : updc c2 i (c2 i + 3) = c := by
              rw [hc2]
              funext j
              by_cases hj : j = i
              · subst hj; simp [updc]; omega
              · simp [updc, hj]
            have hpop : m2.dropLast = m := by rw [hm2]; simp
            simp only [hback, hpop, if_pos hcond]
            rcases hrecB : findMentsuFuel f (seqSub c i) (m ++ [shuntsuM i]) with ⟨b2, d2, n2⟩
            rw [hrecB] at hrec2
            simp at hrec2
            subst hrec2
            simp
          · simp
        · simp only [findMentsuFuel, hscan, if_neg h3, if_pos hcond]
          rcases hrecB : findMentsuFuel f (seqSub c i) (m ++ [shuntsuM i]) with ⟨b2, d2, n2⟩
          rw [hrecB] at hrec2
          simp at hrec2
          subst hrec2
          simp

theorem find_mentsu_recursive_false {c : Counts} {m : List Mentsu}
    (h : (find_mentsu_recursive c m).1 = false) :
    find_mentsu_recursive c m = (false, c, m) :=
  findMentsuFuel_false _ c m h

theorem find_mentsu_recursive_true {c : Counts} {m cf : _} {mf : List Mentsu}
    (h : find_mentsu_recursive c m = (true, cf, mf)) :
    ∃ L : List SMeld, (∀ s ∈ L, s.wf) ∧ mf = m ++ L.map mentsuOfS ∧
      (∀ j, c j = mcounts L j + cf j) ∧ (∀ j, j < 34 → cf j = 0) :=
  findMentsuFuel_true _ c m cf mf h

theorem find_mentsu_recursive_complete {c : Counts} {m : List Mentsu}
    (L : List SMeld) (hwf : ∀ s ∈ L, s.wf) (hpart : ∀ j, c j = mcounts L j) :
    (find_mentsu_recursive c m).1 = true := by
  have hsum : sumCounts c = 3 * L.length := by
    rw [sumCounts_congr (fun j _ => hpart j)]
    exact sumCounts_mcounts L hwf
  refine findMentsuFuel_complete _ L c m hwf hpart ?_
  rw [hsum]
  omega

/-- Claim C3: for every decomposed hand of four melds, a pair and a
winning tile (its sequences being genuine consecutive same-suit runs),
`determine_wait_type` classifies exactly as specified: Tanki when the
winning tile equals the pair tile, checked first; Shanpon when the set
containing the winning tile is a triplet or quad; for a sequence,
Kanchan at the middle position, Penchan at the lowest position of a
sequence ending at rank 9 or the highest position of a sequence starting
at rank 1, and Ryanmen in the remaining end-position cases. -/

theorem claim_C3 (mentsu : Mentsu4) (atama : Hai × Hai) (agari_hai : Hai)
    (hwf : ∀ m ∈ mentsu.val, seqWF m) :
    determine_wait_type mentsu atama agari_hai = wait_spec mentsu atama agari_hai := by
  unfold determine_wait_type wait_spec
  by_cases h1 : agari_hai = atama.1
  · simp [h1]
  · simp only [if_neg h1]
    rcases hf : mentsu.val.find? (fun m => mentsu_contains_tile m agari_hai) with _ | wm
    · rfl
    · have hmem : wm ∈ mentsu.val := List.mem_of_find?_eq_some hf
      have hwm := hwf wm hmem
      rcases hmt : wm.mentsu_type
      · -- Shuntsu
        obtain ⟨hn1, hn7, ht1, ht2⟩ := hwm hmt
        rcases ht0 : wm.tiles0 with ⟨n0, s0⟩ | j0
        · have hr : rankOf wm.tiles0 = n0 := by rw [ht0]; rfl
          have hs : (suitOf wm.tiles0).getD .Manzu = s0 := by rw [ht0]; rfl
          rw [hr, hs] at ht1 ht2
          rw [hr] at hn1 hn7
          have hidx2 : (tile_to_index wm.tiles2 % 9 = 8) ↔ (rankOf wm.tiles2 = 9) := by
            rw [ht2]
            cases s0 <;> simp [tile_to_index, rankOf] <;> omega
          have hidx0 : (tile_to_index wm.tiles0 % 9 = 0) ↔ (rankOf wm.tiles0 = 1) := by
            rw [ht0]
            cases s0 <;> simp [tile_to_index, rankOf] <;> omega
          simp only [hmt, hidx2, hidx0]
        · rw [ht0] at hn1
          simp [rankOf] at hn1
      · -- Koutsu
        simp only [hmt]
      · -- Kantsu
        simp only [hmt]

theorem claim_C3_witness :
    (∀ m ∈ (⟨[⟨.Shuntsu, false, .Suhai 1 .Manzu, .Suhai 2 .Manzu, .Suhai 3 .Manzu, .Suhai 3 .Manzu⟩,
        ⟨.Koutsu, false, .Suhai 5 .Pinzu, .Suhai 5 .Pinzu, .Suhai 5 .Pinzu, .Suhai 5 .Pinzu⟩,
        ⟨.Koutsu, false, .Suhai 6 .Pinzu, .Suhai 6 .Pinzu, .Suhai 6 .Pinzu, .Suhai 6 .Pinzu⟩,
        ⟨.Koutsu, false, .Jihai (.Kaze .Ton), .Jihai (.Kaze .Ton), .Jihai (.Kaze .Ton),
          .Jihai (.Kaze .Ton)⟩], rfl⟩ : Mentsu4).val, seqWF m) ∧
    determine_wait_type
      ⟨[⟨.Shuntsu, false, .Suhai 1 .Manzu, .Suhai 2 .Manzu, .Suhai 3 .Manzu, .Suhai 3 .Manzu⟩,
        ⟨.Koutsu, false, .Suhai 5 .Pinzu, .Suhai 5 .Pinzu, .Suhai 5 .Pinzu, .Suhai 5 .Pinzu⟩,
        ⟨.Koutsu, false, .Suhai 6 .Pinzu, .Suhai 6 .Pinzu, .Suhai 6 .Pinzu, .Suhai 6 .Pinzu⟩,
        ⟨.Koutsu, false, .Jihai (.Kaze .Ton), .Jihai (.Kaze .Ton), .Jihai (.Kaze .Ton),
          .Jihai (.Kaze .Ton)⟩], rfl⟩
      (.Suhai 9 .Souzu, .Suhai 9 .Souzu) (.Suhai 3 .Manzu)
      = wait_spec
      ⟨[⟨.Shuntsu, false, .Suhai 1 .Manzu, .Suhai 2 .Manzu, .Suhai 3 .Manzu, .Suhai 3 .Manzu⟩,
        ⟨.Koutsu, false, .Suhai 5 .Pinzu, .Suhai 5 .Pinzu, .Suhai 5 .Pinzu, .Suhai 5 .Pinzu⟩,
        ⟨.Koutsu, false, .Suhai 6 .Pinzu, .Suhai 6 .Pinzu, .Suhai 6 .Pinzu, .Suhai 6 .Pinzu⟩,
        ⟨.Koutsu, false, .Jihai (.Kaze .Ton), .Jihai (.Kaze .Ton), .Jihai (.Kaze .Ton),
          .Jihai (.Kaze .Ton)⟩], rfl⟩
      (.Suhai 9 .Souzu, .Suhai 9 .Souzu) (.Suhai 3 .Manzu) :=
  ⟨by decide, claim_C3 _ _ _ (by decide)⟩

/-- Claim C5: `calculate_basic_points` maps han at or above 13 to base
8000 with the top-tier limit name, 11-12 han to 6000, 8-10 han to 4000,
6-7 han to 3000, exactly 5 han to 2000, each bypassing the formula; for
han below 5 it returns fu times 2 to the (han + 2) with no limit name,
except that a formula result reaching 2000 is capped at exactly 2000
with the Mangan limit. -/

theorem claim_C5 (han fu : Nat) :
    (13 ≤ han → calculate_basic_points han fu = (8000, some HandLimit.Yakuman)) ∧
    (11 ≤ han → han ≤ 12 → calculate_basic_points han fu = (6000, some HandLimit.Sanbaiman)) ∧
    (8 ≤ han → han ≤ 10 → calculate_basic_points han fu = (4000, some HandLimit.Baiman)) ∧
    (6 ≤ han → han ≤ 7 → calculate_basic_points han fu = (3000, some HandLimit.Haneman)) ∧
    (han = 5 → calculate_basic_points han fu = (2000, some HandLimit.Mangan)) ∧
    (han < 5 → fu * 2 ^ (han + 2) < 2000 →
      calculate_basic_points han fu = (fu * 2 ^ (han + 2), none)) ∧
    (han < 5 → 2000 ≤ fu * 2 ^ (han + 2) →
      calculate_basic_points han fu = (2000, some HandLimit.Mangan)) := by
  unfold calculate_basic_points
  refine ⟨fun h => ?_, fun h h' => ?_, fun h h' => ?_, fun h h' => ?_, fun h => ?_,
    fun h h' => ?_, fun h h' => ?_⟩
  · rw [if_pos h]
  · rw [if_neg (by omega), if_pos h]
  · rw [if_neg (by omega), if_neg (by omega), if_pos h]
  · rw [if_neg (by omega), if_neg (by omega), if_neg (by omega), if_pos h]
  · rw [if_neg (by omega), if_neg (by omega), if_neg (by omega), if_neg (by omega), if_pos h]
  · rw [if_neg (by omega), if_neg (by omega), if_neg (by omega), if_neg (by omega),
      if_neg (by omega)]
    exact if_neg (by omega)
  · rw [if_neg (by omega), if_neg (by omega), if_neg (by omega), if_neg (by omega),
      if_neg (by omega)]
    exact if_pos h'

theorem claim_C5_witness :
    calculate_basic_points 4 30 = (1920, none) ∧
    calculate_basic_points 4 40 = (2000, some HandLimit.Mangan) ∧
    calculate_basic_points 13 25 = (8000, some HandLimit.Yakuman) :=
  ⟨(claim_C5 4 30).2.2.2.2.2.1 (by decide) (by decide),
   (claim_C5 4 40).2.2.2.2.2.2 (by decide) (by decide),
   (claim_C5 13 25).1 (by decide)⟩

/-- Claim C7: whenever `find_mentsu_recursive` returns false, both the
count vector and the meld vector are exactly as they were at entry
(every tentative subtraction is matched by a restore on failure). -/

theorem claim_C7 (counts : Counts) (mentsu : List Mentsu)
    (h : (find_mentsu_recursive counts mentsu).1 = false) :
    (find_mentsu_recursive counts mentsu).2.1 = counts ∧
    (find_mentsu_recursive counts mentsu).2.2 = mentsu := by
  have heq := find_mentsu_recursive_false h
  rw [heq]
  exact ⟨rfl, rfl⟩

theorem claim_C7_witness :
    ((find_mentsu_recursive (fun j => if j = 0 then 2 else if j = 5 then 1 else 0)
        [koutsuM 9]).1 = false) ∧
    (find_mentsu_recursive (fun j => if j = 0 then 2 else if j = 5 then 1 else 0)
        [koutsuM 9]).2.1 = (fun j => if j = 0 then 2 else if j = 5 then 1 else 0) ∧
    (find_mentsu_recursive (fun j => if j = 0 then 2 else if j = 5 then 1 else 0)
        [koutsuM 9]).2.2 = [koutsuM 9] :=
  ⟨by decide, claim_C7 _ _ (by decide)⟩

/-- Claim C8: on the example input of `main.rs` (hand 234m 567m 345p
678p 44s, winning tile 8p, self-draw, non-dealer, seat South, round
East), `organize_hand` returns a Regular decomposition whose wait is
two-sided (Ryanmen), the set containing the winning tile being the
678p sequence, and `calculate_fu` for this hand (whose recognizer
pattern list contains the no-points pattern) is 20. -/

theorem claim_C8 :
    organize_hand create_example_hand_input
      = .ok (.YonmentsuIchiatama example_agari_hand) ∧
    example_agari_hand.machi = .Ryanmen ∧
    example_agari_hand.mentsu.val.find?
        (fun m => mentsu_contains_tile m (.Suhai 8 .Pinzu))
      = some ⟨.Shuntsu, false, .Suhai 6 .Pinzu, .Suhai 7 .Pinzu, .Suhai 8 .Pinzu,
          .Suhai 8 .Pinzu⟩ ∧
    Yaku.Pinfu ∈ example_yaku_list ∧
    calculate_fu (.YonmentsuIchiatama example_agari_hand) example_yaku_list
      create_example_hand_input.player_context create_example_hand_input.game_context
      .Tsumo = 20 :=
  ⟨by rfl, rfl, by decide, by decide, by decide⟩

/-- Claim C9: for every scoring input won by discard (Ron), in both the
yakuman path and the regular path, the result has `oya_payment` 0,
`ko_payment` 0, and `base_points` equal to `total_payment`. -/

theorem claim_C9 (yaku_result : YakuResult) (player : PlayerContext)
    (game : GameContext) :
    (calculate_score yaku_result player game .Ron).oya_payment = 0 ∧
    (calculate_score yaku_result player game .Ron).ko_payment = 0 ∧
    (calculate_score yaku_result player game .Ron).base_points
      = (calculate_score yaku_result player game .Ron).total_payment := by
  unfold calculate_score
  by_cases hy : 0 < count_yakuman yaku_result.yaku_list
  · simp only [if_pos hy]
    cases hob : player.is_oya <;> simp [payment_split, hob]
  · simp only [if_neg hy]
    cases hob : player.is_oya <;> simp [payment_split, hob]

theorem get_pair_fu_honba (t : Hai) (player : PlayerContext) (game : GameContext)
    (x : Nat) : get_pair_fu t player { game with honba := x } = get_pair_fu t player game := by
  rcases t with ⟨n, s⟩ | j
  · rfl
  · cases j <;> rfl

theorem fu_accum_honba (hand : AgariHand) (player : PlayerContext) (game : GameContext)
    (a : AgariType) (x : Nat) :
    fu_accum hand player { game with honba := x } a = fu_accum hand player game a := by
  unfold fu_accum
  rw [get_pair_fu_honba]

theorem calculate_fu_honba (hs : HandStructure) (yl : List Yaku) (player : PlayerContext)
    (game : GameContext) (a : AgariType) (x : Nat) :
    calculate_fu hs yl player { game with honba := x } a
      = calculate_fu hs yl player game a := by
  by_cases h1 : Yaku.Chiitoitsu ∈ yl
  · simp [calculate_fu, h1]
  · by_cases h2 : Yaku.Pinfu ∈ yl
    · simp [calculate_fu, h1, h2]
    · simp only [calculate_fu, if_neg h1, if_neg h2]
      cases hs <;> simp [fu_accum_honba]

/-- Claim C10: in every payment branch of `calculate_score`, the total
payment with honba `h` equals the total payment with honba 0 plus
exactly 300 times `h` (self-draw adds 100 per honba to each of the
three payers, discard adds 300 per honba to the single payment). -/

theorem claim_C10 (yaku_result : YakuResult) (player : PlayerContext)
    (game : GameContext) (agari_type : AgariType) (h : Nat) :
    (calculate_score yaku_result player { game with honba := h } agari_type).total_payment
      = (calculate_score yaku_result player { game with honba := 0 } agari_type).total_payment
        + 300 * h := by
  unfold calculate_score
  by_cases hy : 0 < count_yakuman yaku_result.yaku_list
  · simp only [if_pos hy]
    cases hob : player.is_oya <;> cases agari_type <;>
      simp [payment_split, hob] <;> omega
  · simp only [if_neg hy]
    simp only [calculate_fu_honba]
    cases hob : player.is_oya <;> cases agari_type <;>
      simp [payment_split, hob] <;> omega

theorem mentsu_fu_le (m : Mentsu) : mentsu_fu m ≤ 32 := by
  unfold mentsu_fu
  rcases hmt : m.mentsu_type <;> cases hmo : m.is_minchou <;>
    cases hy : m.tiles0.is_yaochuu <;> simp [hmt, hmo, hy]

theorem sum_mentsu_fu_le (l : List Mentsu) : (l.map mentsu_fu).sum ≤ 32 * l.length := by
  induction l with
  | nil => simp
  | cons x rest ih =>
    simp only [List.map_cons, List.sum_cons, List.length_cons]
    have := mentsu_fu_le x
    omega

theorem get_pair_fu_le (t : Hai) (player : PlayerContext) (game : GameContext) :
    get_pair_fu t player game ≤ 4 := by
  rcases t with ⟨n, s⟩ | j
  · simp [get_pair_fu]
  · cases j with
    | Kaze k =>
      simp only [get_pair_fu]
      split_ifs <;> omega
    | Sangen s => simp [get_pair_fu]

theorem fu_accum_le (hand : AgariHand) (player : PlayerContext) (game : GameContext)
    (a : AgariType) : fu_accum hand player game a ≤ 164 := by
  unfold fu_accum
  have h1 : (hand.mentsu.val.map mentsu_fu).sum ≤ 32 * 4 := by
    have := sum_mentsu_fu_le hand.mentsu.val
    rw [hand.mentsu.property] at this
    exact this
  have h2 := get_pair_fu_le hand.atama.1 player game
  have h3 : (if a = .Tsumo then 2 else if player.is_menzen then 10 else 0) ≤ 10 := by
    split_ifs <;> omega
  have h4 : (match hand.machi with | .Kanchan | .Penchan | .Tanki => 2 | _ => 0) ≤ 2 := by
    cases hand.machi <;> simp
  omega

theorem roundfu_facts (A : Nat) (hA : A ≤ 164) :
    ((A + 9) / 10 * 10) % 256 % 10 = 0 ∧ A ≤ ((A + 9) / 10 * 10) % 256 ∧
    ((A + 9) / 10 * 10) % 256 < A + 10 := by
  have hlt : (A + 9) / 10 * 10 < 256 := by omega
  rw [Nat.mod_eq_of_lt hlt]
  omega

/-- Claim C4 (amended): the fu returned by `calculate_fu` is a multiple
of 10, except that it is the fixed value 25 when the yaku list contains
Chiitoitsu or (the Chiitoitsu and Pinfu yaku checks both failing) when
the hand structure is the seven-pairs structure; for Pinfu it is exactly
20 on self-draw and 30 on a win by discard; and in the standard path
(both the four-melds-and-a-pair and the nine-gates structure arms) the
accumulated fu is rounded up to the next multiple of 10, a value already
a multiple of 10 being left unchanged. -/

theorem claim_C4 (hand_structure : HandStructure) (yaku_list : List Yaku)
    (player : PlayerContext) (game : GameContext) (agari_type : AgariType) :
    (Yaku.Chiitoitsu ∈ yaku_list →
      calculate_fu hand_structure yaku_list player game agari_type = 25) ∧
    (Yaku.Chiitoitsu ∉ yaku_list → Yaku.Pinfu ∈ yaku_list →
      calculate_fu hand_structure yaku_list player game agari_type
        = if agari_type = .Tsumo then 20 else 30) ∧
    (Yaku.Chiitoitsu ∉ yaku_list → Yaku.Pinfu ∉ yaku_list →
      (∀ p a m, hand_structure ≠ .Chiitoitsu p a m) →
      calculate_fu hand_structure yaku_list player game agari_type % 10 = 0) ∧
    (∀ p a m, Yaku.Chiitoitsu ∉ yaku_list → Yaku.Pinfu ∉ yaku_list →
      hand_structure = .Chiitoitsu p a m →
      calculate_fu hand_structure yaku_list player game agari_type = 25) ∧
    (∀ hand, Yaku.Chiitoitsu ∉ yaku_list → Yaku.Pinfu ∉ yaku_list →
      (hand_structure = .YonmentsuIchiatama hand ∨
        ∃ b, hand_structure = .ChuurenPoutou hand b) →
      calculate_fu hand_structure yaku_list player game agari_type % 10 = 0 ∧
      fu_accum hand player game agari_type
        ≤ calculate_fu hand_structure yaku_list player game agari_type ∧
      calculate_fu hand_structure yaku_list player game agari_type
        < fu_accum hand player game agari_type + 10 ∧
      (fu_accum hand player game agari_type % 10 = 0 →
        calculate_fu hand_structure yaku_list player game agari_type
          = fu_accum hand player game agari_type)) := by
  refine ⟨fun h => ?_, fun h1 h2 => ?_, fun h1 h2 h3 => ?_,
    fun p a m h1 h2 heq => ?_, fun hand h1 h2 hor => ?_⟩
  · simp [calculate_fu, h]
  · simp [calculate_fu, h1, h2]
  · rcases hand_structure with hand | ⟨p1, p2, p3⟩ | ⟨k1, k2, k3, k4⟩ | ⟨hand, hb⟩
    · simp only [calculate_fu, if_neg h1, if_neg h2]
      exact (roundfu_facts _ (fu_accum_le hand player game agari_type)).1
    · exact absurd rfl (h3 _ _ _)
    · simp [calculate_fu, h1, h2]
    · simp only [calculate_fu, if_neg h1, if_neg h2]
      exact (roundfu_facts _ (fu_accum_le hand player game agari_type)).1
  · subst heq
    simp [calculate_fu, h1, h2]
  · rcases hor with heq | ⟨b, heq⟩
    · subst heq
      simp only [calculate_fu, if_neg h1, if_neg h2]
      obtain ⟨f1, f2, f3⟩ := roundfu_facts _ (fu_accum_le hand player game agari_type)
      exact ⟨f1, f2, f3, fun hm => by omega⟩
    · subst heq
      simp only [calculate_fu, if_neg h1, if_neg h2]
      obtain ⟨f1, f2, f3⟩ := roundfu_facts _ (fu_accum_le hand player game agari_type)
      exact ⟨f1, f2, f3, fun hm => by omega⟩

theorem claim_C4_witness :
    calculate_fu (.YonmentsuIchiatama example_agari_hand) [Yaku.Chiitoitsu]
      cex_player cex_game .Ron = 25 ∧
    calculate_fu cex_hand_structure [] cex_player cex_game .Ron = 25 ∧
    calculate_fu (.YonmentsuIchiatama example_agari_hand) [] cex_player cex_game .Ron
      % 10 = 0 ∧
    calculate_fu (.ChuurenPoutou example_agari_hand false) [] cex_player cex_game .Ron
      % 10 = 0 :=
  ⟨(claim_C4 (.YonmentsuIchiatama example_agari_hand) [Yaku.Chiitoitsu]
      cex_player cex_game .Ron).1 (by decide),
   (claim_C4 cex_hand_structure [] cex_player cex_game .Ron).2.2.2.1
      [] (.Jihai (.Kaze .Ton)) .Tanki (by decide) (by decide) rfl,
   ((claim_C4 (.YonmentsuIchiatama example_agari_hand) [] cex_player cex_game
      .Ron).2.2.2.2 example_agari_hand (by decide) (by decide) (Or.inl rfl)).1,
   ((claim_C4 (.ChuurenPoutou example_agari_hand false) [] cex_player cex_game
      .Ron).2.2.2.2 example_agari_hand (by decide) (by decide) (Or.inr ⟨false, rfl⟩)).1⟩

/-- Claim C4 fails as stated: for the seven-pairs hand structure with a
yaku list containing neither Chiitoitsu nor Pinfu, `calculate_fu`
returns 25, which is not a multiple of 10 although neither stated
exception applies. -/

theorem claim_C4_counterexample :
    calculate_fu cex_hand_structure [] cex_player cex_game .Ron = 25 ∧
    ¬(calculate_fu cex_hand_structure [] cex_player cex_game .Ron % 10 = 0) ∧
    Yaku.Chiitoitsu ∉ ([] : List Yaku) ∧ Yaku.Pinfu ∉ ([] : List Yaku) := by
  decide

theorem except_unit_cases (x : Except String Unit) :
    (∃ e, x = .error e) ∨ x = .ok () := by
  cases x with
  | error e => exact Or.inl ⟨e, rfl⟩
  | ok u => cases u; exact Or.inr rfl

theorem organize_hand_error {input : UserInput} {e : String}
    (h : validate_input input (countsOfTiles input.hand_tiles) = .error e) :
    organize_hand input = .error e := by
  unfold organize_hand
  rw [h]

theorem validate_rest_error (input : UserInput) (master : Counts)
    (h : input.winning_tile ∉ input.hand_tiles
      ∨ (∃ i, i < 34 ∧ 4 < master i)
      ∨ master (tile_to_index (.Suhai 5 .Manzu)) + master (tile_to_index (.Suhai 5 .Pinzu))
          + master (tile_to_index (.Suhai 5 .Souzu)) < input.game_context.num_akadora
      ∨ 4 < input.game_context.num_akadora) :
    ∃ e, validate_rest input master = .error e := by
  unfold validate_rest
  by_cases w1 : input.winning_tile ∉ input.hand_tiles
  · rw [if_pos w1]; exact ⟨_, rfl⟩
  · rw [if_neg w1]
    by_cases w2 : ((List.range 34).any fun i => decide (4 < master i)) = true
    · rw [if_pos w2]; exact ⟨_, rfl⟩
    · rw [if_neg w2]
      by_cases w3 : master (tile_to_index (.Suhai 5 .Manzu))
          + master (tile_to_index (.Suhai 5 .Pinzu))
          + master (tile_to_index (.Suhai 5 .Souzu)) < input.game_context.num_akadora
      · rw [if_pos w3]; exact ⟨_, rfl⟩
      · rw [if_neg w3]
        by_cases w4 : 4 < input.game_context.num_akadora
        · rw [if_pos w4]; exact ⟨_, rfl⟩
        · exfalso
          rcases h with hx | ⟨i, hi, hgt⟩ | hx | hx
          · exact w1 hx
          · apply w2
            simp only [List.any_eq_true, List.mem_range, decide_eq_true_eq]
            exact ⟨i, hi, hgt⟩
          · exact w3 hx
          · exact w4 hx

theorem comp_error_of_conditions (input : UserInput) (master : Counts)
    (h : 4 < input.closed_kans.length + input.open_melds.length
      ∨ (input.hand_tiles.length ≠ totalKans input * 4 + (4 - totalKans input) * 3 + 2
          ∧ ¬(input.hand_tiles.length = 14 ∧ totalKans input = 0))
      ∨ input.winning_tile ∉ input.hand_tiles
      ∨ (∃ i, i < 34 ∧ 4 < master i)
      ∨ master (tile_to_index (.Suhai 5 .Manzu)) + master (tile_to_index (.Suhai 5 .Pinzu))
          + master (tile_to_index (.Suhai 5 .Souzu)) < input.game_context.num_akadora
      ∨ 4 < input.game_context.num_akadora) :
    ∃ e, validate_hand_composition input master = .error e := by
  unfold validate_hand_composition
  by_cases h1 : 4 < input.closed_kans.length + input.open_melds.length
  · rw [if_pos h1]; exact ⟨_, rfl⟩
  · rw [if_neg h1]
    by_cases h2 : input.hand_tiles.length = 14 ∧ totalKans input = 0
    · rw [if_pos h2]
      apply validate_rest_error
      rcases h with hx | ⟨hx, hy⟩ | hx | hx | hx | hx
      · exact absurd hx h1
      · exact absurd h2 hy
      · exact Or.inl hx
      · exact Or.inr (Or.inl hx)
      · exact Or.inr (Or.inr (Or.inl hx))
      · exact Or.inr (Or.inr (Or.inr hx))
    · rw [if_neg h2]
      by_cases h3 : input.hand_tiles.length
          ≠ totalKans input * 4 + (4 - totalKans input) * 3 + 2
      · rw [if_pos h3]; exact ⟨_, rfl⟩
      · rw [if_neg h3]
        apply validate_rest_error
        rcases h with hx | ⟨hx, hy⟩ | hx | hx | hx | hx
        · exact absurd hx h1
        · exact absurd hx h3
        · exact Or.inl hx
        · exact Or.inr (Or.inl hx)
        · exact Or.inr (Or.inr (Or.inl hx))
        · exact Or.inr (Or.inr (Or.inr hx))

theorem validate_input_error_of_comp (input : UserInput) (master : Counts)
    (h : ∃ e, validate_hand_composition input master = .error e) :
    ∃ e, validate_input input master = .error e := by
  unfold validate_input
  rcases except_unit_cases (validate_game_state input.player_context input.game_context
    input.agari_type input) with ⟨e, he⟩ | hok
  · rw [he]
    exact ⟨e, rfl⟩
  · rw [hok]
    exact h

theorem organize_error_of_conditions (input : UserInput)
    (h : 4 < input.closed_kans.length + input.open_melds.length
      ∨ (input.hand_tiles.length ≠ totalKans input * 4 + (4 - totalKans input) * 3 + 2
          ∧ ¬(input.hand_tiles.length = 14 ∧ totalKans input = 0))
      ∨ input.winning_tile ∉ input.hand_tiles
      ∨ (∃ i, i < 34 ∧ 4 < countsOfTiles input.hand_tiles i)
      ∨ countsOfTiles input.hand_tiles (tile_to_index (.Suhai 5 .Manzu))
          + countsOfTiles input.hand_tiles (tile_to_index (.Suhai 5 .Pinzu))
          + countsOfTiles input.hand_tiles (tile_to_index (.Suhai 5 .Souzu))
          < input.game_context.num_akadora
      ∨ 4 < input.game_context.num_akadora) :
    ∃ e, organize_hand input = .error e := by
  obtain ⟨e, he⟩ := validate_input_error_of_comp input (countsOfTiles input.hand_tiles)
    (comp_error_of_conditions input (countsOfTiles input.hand_tiles) h)
  exact ⟨e, organize_hand_error he⟩

/-- Claim C6: `organize_hand` returns an `Err` whenever the declared
calls exceed 4, whenever the total tile count differs from
3(4-k) + 4k + 2 for k total quads outside the 14-tiles-and-zero-quads
case, whenever the winning tile is not among the held tiles, whenever a
tile kind appears more than 4 times, or whenever the declared akadora
count exceeds the rank-5 tiles held or exceeds 4; in particular five
declared concealed quads are always rejected.  The validation gate runs
before any decomposition, so an `Err` means no decomposition output. -/

theorem claim_C6 (input : UserInput) :
    (4 < input.closed_kans.length + input.open_melds.length →
      ∃ e, organize_hand input = .error e) ∧
    (input.hand_tiles.length ≠ totalKans input * 4 + (4 - totalKans input) * 3 + 2 →
      ¬(input.hand_tiles.length = 14 ∧ totalKans input = 0) →
      ∃ e, organize_hand input = .error e) ∧
    (input.winning_tile ∉ input.hand_tiles → ∃ e, organize_hand input = .error e) ∧
    ((∃ i, i < 34 ∧ 4 < countsOfTiles input.hand_tiles i) →
      ∃ e, organize_hand input = .error e) ∧
    (countsOfTiles input.hand_tiles (tile_to_index (.Suhai 5 .Manzu))
        + countsOfTiles input.hand_tiles (tile_to_index (.Suhai 5 .Pinzu))
        + countsOfTiles input.hand_tiles (tile_to_index (.Suhai 5 .Souzu))
        < input.game_context.num_akadora ∨ 4 < input.game_context.num_akadora →
      ∃ e, organize_hand input = .error e) ∧
    (input.closed_kans.length = 5 → ∃ e, organize_hand input = .error e) := by
  refine ⟨fun h => ?_, fun h h' => ?_, fun h => ?_, fun h => ?_, fun h => ?_, fun h => ?_⟩
  · exact organize_error_of_conditions input (Or.inl h)
  · exact organize_error_of_conditions input (Or.inr (Or.inl ⟨h, h'⟩))
  · exact organize_error_of_conditions input (Or.inr (Or.inr (Or.inl h)))
  · exact organize_error_of_conditions input (Or.inr (Or.inr (Or.inr (Or.inl h))))
  · rcases h with h | h
    · exact organize_error_of_conditions input
        (Or.inr (Or.inr (Or.inr (Or.inr (Or.inl h)))))
    · exact organize_error_of_conditions input
        (Or.inr (Or.inr (Or.inr (Or.inr (Or.inr h)))))
  · exact organize_error_of_conditions input (Or.inl (by omega))

theorem claim_C6_witness :
    ∃ e, organize_hand
      { hand_tiles := example_hand_tiles
        winning_tile := .Suhai 8 .Pinzu
        open_melds := []
        closed_kans := [.Jihai (.Sangen .Chun), .Jihai (.Sangen .Chun),
          .Jihai (.Sangen .Chun), .Jihai (.Sangen .Chun), .Jihai (.Sangen .Chun)]
        player_context := cex_player
        game_context := cex_game
        agari_type := .Ron } = .error e :=
  (claim_C6 _).2.2.2.2.2 (by decide)

theorem mcntList_nil (j : Nat) : mcntList [] j = 0 := rfl

theorem mcntList_cons (m : Mentsu) (L : List Mentsu) (j : Nat) :
    mcntList (m :: L) j = cntM m j + mcntList L j := by
  simp [mcntList]

theorem mcntList_append (L1 L2 : List Mentsu) (j : Nat) :
    mcntList (L1 ++ L2) j = mcntList L1 j + mcntList L2 j := by
  simp [mcntList]

theorem cntM_mentsuOfS (s : SMeld) (hwf : s.wf) (j : Nat) :
    cntM (mentsuOfS s) j = s.cnt j := by
  cases s with
  | tri i =>
    have hi : i < 34 := hwf
    simp [mentsuOfS, koutsuM, cntM, SMeld.cnt, index_to_tile_index i hi]
  | seq i =>
    obtain ⟨h27, _⟩ := hwf
    simp [mentsuOfS, shuntsuM, cntM, SMeld.cnt, index_to_tile_index i (by omega)]

theorem WFMentsu_mentsuOfS (s : SMeld) (hwf : s.wf) : WFMentsu (mentsuOfS s) := by
  cases s with
  | tri i =>
    have hi : i < 34 := hwf
    exact ⟨index_to_tile_wf i hi, rfl, rfl, rfl⟩
  | seq i =>
    obtain ⟨h27, h9⟩ := hwf
    refine ⟨index_to_tile_wf i (by omega), ?_, ?_, ?_, ?_⟩ <;>
      rw [show tile_to_index (mentsuOfS (SMeld.seq i)).tiles0 = i from
        index_to_tile_index i (by omega)]
    · exact h27
    · exact h9
    · rfl
    · rfl

theorem mcntList_map_mentsuOfS (L : List SMeld) (hwf : ∀ s ∈ L, s.wf) (j : Nat) :
    mcntList (L.map mentsuOfS) j = mcounts L j := by
  induction L with
  | nil => rfl
  | cons s rest ih =>
    have hs := hwf s (List.mem_cons_self s rest)
    have hr : ∀ x ∈ rest, SMeld.wf x := fun x hx => hwf x (List.mem_cons_of_mem s hx)
    simp only [List.map_cons, mcntList_cons, mcounts_cons, ih hr,
      cntM_mentsuOfS s hs]

/-! ## Processing of declared calls: invariants -/

theorem processKans_ok :
    ∀ (ks : List Hai) (c : Counts) (m : List Mentsu) c' m',
      processKans ks c m = .ok (c', m') →
      m' = m ++ ks.map kanMentsu ∧
      (∀ j, c j = mcntList (ks.map kanMentsu) j + c' j) := by
  intro ks
  induction ks with
  | nil =>
    intro c m c' m' h
    simp only [processKans] at h
    obtain ⟨h1, h2⟩ : c = c' ∧ m = m' := by
      refine ⟨?_, ?_⟩
      · have := congrArg (fun x => match x with | .ok y => y.1 | .error _ => c) h
        simpa using this
      · have := congrArg (fun x => match x with | .ok y => y.2 | .error _ => m) h
        simpa using this
    subst h1; subst h2
    exact ⟨by simp, fun j => by simp [mcntList_nil]⟩
  | cons t rest ih =>
    intro c m c' m' h
    simp only [processKans] at h
    by_cases hc : c (tile_to_index t) < 4
    · rw [if_pos hc] at h
      exact absurd h (by simp)
    · rw [if_neg hc] at h
      obtain ⟨hm, hcount⟩ := ih _ _ _ _ h
      constructor
      · rw [hm]
        simp
      · intro j
        have hj := hcount j
        rw [List.map_cons, mcntList_cons]
        have hk : cntM (kanMentsu t) j = if j = tile_to_index t then 4 else 0 := rfl
        by_cases he : j = tile_to_index t
        · rw [hk, if_pos he, he]
          have hu : updc c (tile_to_index t) (c (tile_to_index t) - 4) j
              = c (tile_to_index t) - 4 := by
            rw [he]; exact updc_same _ _ _
          rw [hu] at hj
          rw [he] at hj
          omega
        · rw [updc_other _ _ _ _ he] at hj
          rw [hk, if_neg he]
          omega

theorem kanMentsu_wf (t : Hai) (h : WFHai t) : WFMentsu (kanMentsu t) :=
  ⟨h, rfl, rfl, rfl⟩

theorem processOpenMelds_ok :
    ∀ (os : List OpenMeld) (c : Counts) (m : List Mentsu) c' m',
      processOpenMelds os c m = .ok (c', m') →
      (∀ om ∈ os, WFHai om.representative_tile) →
      m' = m ++ os.map openMentsuOf ∧
      (∀ j, c j = mcntList (os.map openMentsuOf) j + c' j) ∧
      (∀ x ∈ os.map openMentsuOf, WFMentsu x) := by
  intro os
  induction os with
  | nil =>
    intro c m c' m' h _
    simp only [processOpenMelds] at h
    obtain ⟨h1, h2⟩ : c = c' ∧ m = m' := by
      refine ⟨?_, ?_⟩
      · have := congrArg (fun x => match x with | .ok y => y.1 | .error _ => c) h
        simpa using this
      · have := congrArg (fun x => match x with | .ok y => y.2 | .error _ => m) h
        simpa using this
    subst h1; subst h2
    exact ⟨by simp, fun j => by simp [mcntList_nil], by simp⟩
  | cons om rest ih =>
    intro c m c' m' h hwf
    have hwor : ∀ x ∈ rest, WFHai x.representative_tile :=
      fun x hx => hwf x (List.mem_cons_of_mem om hx)
    have hwo : WFHai om.representative_tile := hwf om (List.mem_cons_self om rest)
    simp only [processOpenMelds] at h
    rcases hmt : om.mentsu_type with _ | _ | _
    · -- Shuntsu
      rw [hmt] at h
      by_cases hb1 : 27 ≤ tile_to_index om.representative_tile
          ∨ 7 ≤ tile_to_index om.representative_tile % 9
      · rw [if_pos hb1] at h
        exact absurd h (by simp)
      · rw [if_neg hb1] at h
        by_cases hb2 : c (tile_to_index om.representative_tile) < 1
            ∨ c (tile_to_index om.representative_tile + 1) < 1
            ∨ c (tile_to_index om.representative_tile + 2) < 1
        · rw [if_pos hb2] at h
          exact absurd h (by simp)
        · rw [if_neg hb2] at h
          obtain ⟨hm, hcount, hwfrest⟩ := ih _ _ _ _ h hwor
          push_neg at hb1 hb2
          refine ⟨by rw [hm]; simp, ?_, ?_⟩
          · intro j
            have hj := hcount j
            rw [List.map_cons, mcntList_cons]
            have hco : cntM (openMentsuOf om) j
                = (SMeld.seq (tile_to_index om.representative_tile)).cnt j := by
              simp [openMentsuOf, hmt, cntM, SMeld.cnt]
            rw [hco]
            have hkey := seq_cnt_seqSub c (tile_to_index om.representative_tile)
              (by omega) (by omega) (by omega) j
            omega
          · intro x hx
            rcases List.mem_map.mp hx with ⟨a, ha, rfl⟩
            rcases List.mem_cons.mp ha with ha | ha
            · rw [ha]
              have ht0 : (openMentsuOf om).tiles0 = om.representative_tile := by
                simp [openMentsuOf, hmt]
              have htt : (openMentsuOf om).mentsu_type = .Shuntsu := by
                simp [openMentsuOf, hmt]
              have h1 : (openMentsuOf om).tiles1
                  = index_to_tile (tile_to_index om.representative_tile + 1) := by
                simp [openMentsuOf, hmt]
              have h2 : (openMentsuOf om).tiles2
                  = index_to_tile (tile_to_index om.representative_tile + 2) := by
                simp [openMentsuOf, hmt]
              unfold WFMentsu
              rw [htt, ht0]
              exact ⟨hwo, by omega, by omega, h1, h2⟩
            · exact hwfrest (openMentsuOf a) (List.mem_map_of_mem _ ha)
    · -- Koutsu
      rw [hmt] at h
      by_cases hc : c (tile_to_index om.representative_tile) < 3
      · rw [if_pos hc] at h
        exact absurd h (by simp)
      · rw [if_neg hc] at h
        obtain ⟨hm, hcount, hwfrest⟩ := ih _ _ _ _ h hwor
        refine ⟨by rw [hm]; simp, ?_, ?_⟩
        · intro j
          have hj := hcount j
          rw [List.map_cons, mcntList_cons]
          have hco : cntM (openMentsuOf om) j
              = if j = tile_to_index om.representative_tile then 3 else 0 := by
            simp [openMentsuOf, hmt, cntM]
          rw [hco]
          by_cases he : j = tile_to_index om.representative_tile
          · rw [if_pos he, he]
            have hu : updc c (tile_to_index om.representative_tile)
                (c (tile_to_index om.representative_tile) - 3) j
                = c (tile_to_index om.representative_tile) - 3 := by
              rw [he]; exact updc_same _ _ _
            rw [hu] at hj
            rw [he] at hj
            omega
          · rw [updc_other _ _ _ _ he] at hj
            rw [if_neg he]
            omega
        · intro x hx
          rcases List.mem_map.mp hx with ⟨a, ha, rfl⟩
          rcases List.mem_cons.mp ha with ha | ha
          · rw [ha]
            have htt : (openMentsuOf om).mentsu_type = .Koutsu := by
              simp [openMentsuOf, hmt]
            unfold WFMentsu
            rw [htt]
            refine ⟨?_, ?_, ?_, ?_⟩ <;> simp [openMentsuOf, hmt, hwo]
          · exact hwfrest (openMentsuOf a) (List.mem_map_of_mem _ ha)
    · -- Kantsu
      rw [hmt] at h
      by_cases hc : c (tile_to_index om.representative_tile) < 4
      · rw [if_pos hc] at h
        exact absurd h (by simp)
      · rw [if_neg hc] at h
        obtain ⟨hm, hcount, hwfrest⟩ := ih _ _ _ _ h hwor
        refine ⟨by rw [hm]; simp, ?_, ?_⟩
        · intro j
          have hj := hcount j
          rw [List.map_cons, mcntList_cons]
          have hco : cntM (openMentsuOf om) j
              = if j = tile_to_index om.representative_tile then 4 else 0 := by
            simp [openMentsuOf, hmt, cntM]
          rw [hco]
          by_cases he : j = tile_to_index om.representative_tile
          · rw [if_pos he, he]
            have hu : updc c (tile_to_index om.representative_tile)
                (c (tile_to_index om.representative_tile) - 4) j
                = c (tile_to_index om.representative_tile) - 4 := by
              rw [he]; exact updc_same _ _ _
            rw [hu] at hj
            rw [he] at hj
            omega
          · rw [updc_other _ _ _ _ he] at hj
            rw [if_neg he]
            omega
        · intro x hx
          rcases List.mem_map.mp hx with ⟨a, ha, rfl⟩
          rcases List.mem_cons.mp ha with ha | ha
          · rw [ha]
            have htt : (openMentsuOf om).mentsu_type = .Kantsu := by
              simp [openMentsuOf, hmt]
            unfold WFMentsu
            rw [htt]
            refine ⟨?_, ?_, ?_, ?_⟩ <;> simp [openMentsuOf, hmt, hwo]
          · exact hwfrest (openMentsuOf a) (List.mem_map_of_mem _ ha)

/-! ## Case B loop characterization -/

theorem tryPairs_none_iff (c : Counts) (decl : List Mentsu) (needed : Nat)
    (agari_hai : Hai) :
    ∀ idxs : List Nat, tryPairs c decl needed agari_hai idxs = none ↔
      ∀ i ∈ idxs, ¬(2 ≤ c i ∧ (searchResult c i).1 = true ∧
        (searchResult c i).2.2.length = needed) := by
  intro idxs
  induction idxs with
  | nil => simp [tryPairs]
  | cons i rest ih =>
    simp only [tryPairs]
    by_cases hcond : 2 ≤ c i ∧ (searchResult c i).1 = true ∧
        (searchResult c i).2.2.length = needed
    · rw [if_pos hcond]
      simp only [List.mem_cons]
      constructor
      · intro h
        exact absurd h (by simp)
      · intro h
        exact absurd hcond (h i (Or.inl rfl))
    · rw [if_neg hcond]
      rw [ih]
      constructor
      · intro h x hx
        rcases List.mem_cons.mp hx with hx | hx
        · subst hx; exact hcond
        · exact h x hx
      · intro h x hx
        exact h x (List.mem_cons_of_mem i hx)

theorem tryPairs_some_elim {c : Counts} {decl : List Mentsu} {needed : Nat}
    {agari_hai : Hai} :
    ∀ {idxs : List Nat} {r}, tryPairs c decl needed agari_hai idxs = some r →
      ∃ i ∈ idxs, (2 ≤ c i ∧ (searchResult c i).1 = true ∧
        (searchResult c i).2.2.length = needed) ∧
        r = mkPairResult decl agari_hai c i := by
  intro idxs
  induction idxs with
  | nil => intro r h; simp [tryPairs] at h
  | cons i rest ih =>
    intro r h
    simp only [tryPairs] at h
    by_cases hcond : 2 ≤ c i ∧ (searchResult c i).1 = true ∧
        (searchResult c i).2.2.length = needed
    · rw [if_pos hcond] at h
      refine ⟨i, List.mem_cons_self i rest, hcond, ?_⟩
      have := Option.some.inj h
      exact this.symm
    · rw [if_neg hcond] at h
      obtain ⟨x, hx, hc, hr⟩ := ih h
      exact ⟨x, List.mem_cons_of_mem i hx, hc, hr⟩

/-! ## Facts extracted from a successful validation -/

theorem validate_rest_ok_facts (input : UserInput) (master : Counts)
    (h : validate_rest input master = .ok ()) :
    input.winning_tile ∈ input.hand_tiles ∧
    ∀ i, i < 34 → master i ≤ 4 := by
  unfold validate_rest at h
  by_cases w1 : input.winning_tile ∉ input.hand_tiles
  · rw [if_pos w1] at h
    exact absurd h (by simp)
  · rw [if_neg w1] at h
    by_cases w2 : ((List.range 34).any fun i => decide (4 < master i)) = true
    · rw [if_pos w2] at h
      exact absurd h (by simp)
    · refine ⟨not_not.mp w1, fun i hi => ?_⟩
      by_contra hgt
      apply w2
      simp only [List.any_eq_true, List.mem_range, decide_eq_true_eq]
      exact ⟨i, hi, by omega⟩

theorem validate_input_ok_facts (input : UserInput) (master : Counts)
    (h : validate_input input master = .ok ()) :
    input.winning_tile ∈ input.hand_tiles ∧
    (∀ i, i < 34 → master i ≤ 4) ∧
    input.closed_kans.length + input.open_melds.length ≤ 4 ∧
    (input.hand_tiles.length = totalKans input * 4 + (4 - totalKans input) * 3 + 2 ∨
      (input.hand_tiles.length = 14 ∧ totalKans input = 0)) := by
  unfold validate_input at h
  rcases except_unit_cases (validate_game_state input.player_context input.game_context
      input.agari_type input) with ⟨e, he⟩ | hok
  · rw [he] at h
    exact absurd h (by simp)
  · rw [hok] at h
    unfold validate_hand_composition at h
    by_cases h1 : 4 < input.closed_kans.length + input.open_melds.length
    · rw [if_pos h1] at h
      exact absurd h (by simp)
    · rw [if_neg h1] at h
      by_cases h2 : input.hand_tiles.length = 14 ∧ totalKans input = 0
      · rw [if_pos h2] at h
        obtain ⟨hw, hcap⟩ := validate_rest_ok_facts input master h
        exact ⟨hw, hcap, by omega, Or.inr h2⟩
      · rw [if_neg h2] at h
        by_cases h3 : input.hand_tiles.length
            ≠ totalKans input * 4 + (4 - totalKans input) * 3 + 2
        · rw [if_pos h3] at h
          exact absurd h (by simp)
        · rw [if_neg h3] at h
          obtain ⟨hw, hcap⟩ := validate_rest_ok_facts input master h
          exact ⟨hw, hcap, by omega, Or.inl (not_not.mp h3)⟩

theorem mem_counts_pos {l : List Hai} {a : Hai} (h : a ∈ l) :
    countsOfTiles l (tile_to_index a) ≠ 0 := by
  rw [countsOfTiles_apply]
  have : a ∈ l.filter (fun t => decide (tile_to_index t = tile_to_index a)) :=
    List.mem_filter.mpr ⟨h, by simp⟩
  have := List.length_pos.mpr (List.ne_nil_of_mem this)
  omega

theorem organize_hand_no_calls (input : UserInput)
    (hval : validate_input input (countsOfTiles input.hand_tiles) = .ok ())
    (hopen : input.open_melds = []) (hkan : input.closed_kans = []) :
    organize_hand input
      = organize_post input (countsOfTiles input.hand_tiles)
          (countsOfTiles input.hand_tiles) [] := by
  unfold organize_hand
  rw [hval, hkan, hopen]
  rfl

theorem organize_post_no_decl (input : UserInput) (master c2 : Counts) :
    organize_post input master c2 [] =
      match tryPairs c2 [] 4 input.winning_tile (List.range 34) with
      | some r => r
      | none => .ok (.Irregular master input.winning_tile) := rfl

theorem partition_of_hit (master : Counts) (i : Nat) (hi : i < 34)
    (hmhi : ∀ j, 34 ≤ j → master j = 0)
    (h2 : 2 ≤ master i)
    (hs : (searchResult master i).1 = true)
    (hlen : (searchResult master i).2.2.length = 4) :
    HasStdPartition master := by
  rcases hres : searchResult master i with ⟨b, cf, mf⟩
  rw [hres] at hs hlen
  simp only at hs hlen
  subst hs
  have hfind : find_mentsu_recursive (updc master i (master i - 2)) [] = (true, cf, mf) :=
    hres
  obtain ⟨L, hLwf, hLm, hLc, hLz⟩ := find_mentsu_recursive_true hfind
  have hlen4 : L.length = 4 := by
    rw [hLm] at hlen
    simpa using hlen
  refine ⟨i, hi, L, hlen4, hLwf, fun j => ?_⟩
  by_cases hj : j < 34
  · by_cases he : j = i
    · rw [if_pos he, he]
      have hci := hLc i
      rw [updc_same] at hci
      have hzi := hLz i hi
      omega
    · rw [if_neg he]
      have hcj := hLc j
      rw [updc_other _ _ _ _ he] at hcj
      have hzj := hLz j hj
      omega
  · have hm0 : master j = 0 := hmhi j (by omega)
    have hmc : mcounts L j = 0 := mcounts_hi L hLwf j (by omega)
    have hne : j ≠ i := by omega
    rw [if_neg hne, hm0, hmc]

theorem hit_of_partition (master : Counts)
    (hp : HasStdPartition master) :
    ∃ p, p < 34 ∧ 2 ≤ master p ∧ (searchResult master p).1 = true ∧
      (searchResult master p).2.2.length = 4 := by
  obtain ⟨p, hp34, L, hlen, hwf, hpart⟩ := hp
  have h2 : 2 ≤ master p := by
    have := hpart p
    rw [if_pos rfl] at this
    omega
  have htemp : ∀ j, updc master p (master p - 2) j = mcounts L j := by
    intro j
    by_cases he : j = p
    · rw [he, updc_same]
      have := hpart p
      rw [if_pos rfl] at this
      omega
    · rw [updc_other _ _ _ _ he]
      have := hpart j
      rw [if_neg he] at this
      omega
  have hs : (find_mentsu_recursive (updc master p (master p - 2)) []).1 = true :=
    find_mentsu_recursive_complete L hwf htemp
  rcases hres : find_mentsu_recursive (updc master p (master p - 2)) [] with ⟨b, cf, mf⟩
  rw [hres] at hs
  simp only at hs
  subst hs
  obtain ⟨L2, hL2wf, hL2m, hL2c, hL2z⟩ := find_mentsu_recursive_true hres
  have hsum2 : sumCounts (updc master p (master p - 2)) = 3 * L2.length := by
    rw [sumCounts_congr (fun j hj => by rw [hL2c j, hL2z j hj, Nat.add_zero])]
    exact sumCounts_mcounts L2 hL2wf
  have hsum1 : sumCounts (updc master p (master p - 2)) = 3 * L.length := by
    rw [sumCounts_congr (fun j _ => htemp j)]
    exact sumCounts_mcounts L hwf
  have hlen2 : L2.length = 4 := by
    rw [hlen] at hsum1
    omega
  have hsr : searchResult master p = (true, cf, mf) := hres
  refine ⟨p, hp34, h2, ?_, ?_⟩
  · rw [hsr]
  · rw [hsr]
    rw [hL2m]
    simpa using hlen2

theorem mkPairResult_eq_of (decl : List Mentsu) (agari_hai : Hai) (c : Counts) (i : Nat)
    (arr : Mentsu4) (machi : Machi)
    (harr : toFour (decl ++ (searchResult c i).2.2) = some arr)
    (hw : determine_wait_type arr (index_to_tile i, index_to_tile i) agari_hai
      = some machi) :
    mkPairResult decl agari_hai c i
      = .ok (.YonmentsuIchiatama
          ⟨arr, (index_to_tile i, index_to_tile i), agari_hai, machi⟩) := by
  unfold mkPairResult
  simp only [harr, hw]

theorem determine_wait_type_some (arr : Mentsu4) (i : Nat) (agari_hai : Hai)
    (hwa : WFHai agari_hai)
    (hc : agari_hai = index_to_tile i ∨
      ∃ x ∈ arr.val, mentsu_contains_tile x agari_hai = true) :
    ∃ machi, determine_wait_type arr (index_to_tile i, index_to_tile i) agari_hai
      = some machi := by
  by_cases htan : agari_hai = index_to_tile i
  · refine ⟨.Tanki, ?_⟩
    unfold determine_wait_type
    rw [if_pos htan]
  · have hcontains : ∃ x ∈ arr.val, mentsu_contains_tile x agari_hai = true :=
      hc.resolve_left htan
    obtain ⟨wm, hwm⟩ := Option.isSome_iff_exists.mp (List.find?_isSome.mpr hcontains)
    have hwmc : mentsu_contains_tile wm agari_hai = true := by
      simpa using List.find?_some hwm
    unfold determine_wait_type
    rw [if_neg htan, hwm]
    rcases hmt : wm.mentsu_type
    · -- Shuntsu
      rw [mentsu_contains_tile, hmt] at hwmc
      simp only [Bool.or_eq_true, decide_eq_true_eq] at hwmc
      by_cases q1 : agari_hai = wm.tiles1
      · exact ⟨.Kanchan, by simp only [hmt]; rw [if_pos q1]⟩
      · by_cases q0 : agari_hai = wm.tiles0
        · by_cases q9 : tile_to_index wm.tiles2 % 9 = 8
          · exact ⟨.Penchan, by simp only [hmt]; rw [if_neg q1, if_pos q0, if_pos q9]⟩
          · exact ⟨.Ryanmen, by simp only [hmt]; rw [if_neg q1, if_pos q0, if_neg q9]⟩
        · by_cases q2 : agari_hai = wm.tiles2
          · by_cases q91 : tile_to_index wm.tiles0 % 9 = 0
            · exact ⟨.Penchan, by
                simp only [hmt]
                rw [if_neg q1, if_neg q0, if_pos q2, if_pos q91]⟩
            · exact ⟨.Ryanmen, by
                simp only [hmt]
                rw [if_neg q1, if_neg q0, if_pos q2, if_neg q91]⟩
          · exfalso
            rcases hwmc with (hx | hx) | hx
            · exact q0 hx.symm
            · exact q1 hx.symm
            · exact q2 hx.symm
    · exact ⟨.Shanpon, by simp [hmt]⟩
    · exact ⟨.Shanpon, by simp [hmt]⟩

theorem mkPairResult_regular (agari_hai : Hai) (c : Counts) (i : Nat)
    (hi : i < 34) (hwa : WFHai agari_hai)
    (hcov : c (tile_to_index agari_hai) ≠ 0)
    (hs : (searchResult c i).1 = true)
    (hlen4 : (searchResult c i).2.2.length = 4) :
    ∃ h : AgariHand, mkPairResult [] agari_hai c i = .ok (.YonmentsuIchiatama h) := by
  have hlenA : ([] ++ (searchResult c i).2.2).length = 4 := by simpa using hlen4
  have harr : toFour ([] ++ (searchResult c i).2.2)
      = some ⟨[] ++ (searchResult c i).2.2, hlenA⟩ := dif_pos hlenA
  rcases hres : searchResult c i with ⟨b, cf, mf⟩
  rw [hres] at hs
  simp only at hs
  subst hs
  have hfind : find_mentsu_recursive (updc c i (c i - 2)) [] = (true, cf, mf) := hres
  obtain ⟨L, hLwf, hLm, hLc, hLz⟩ := find_mentsu_recursive_true hfind
  have hcontain : agari_hai = index_to_tile i ∨
      ∃ x ∈ ([] ++ (searchResult c i).2.2), mentsu_contains_tile x agari_hai = true := by
    by_cases htan : agari_hai = index_to_tile i
    · exact Or.inl htan
    · right
      have hne : tile_to_index agari_hai ≠ i := by
        intro heq
        apply htan
        rw [← heq, tile_index_roundtrip agari_hai hwa]
      have hia : tile_to_index agari_hai < 34 := tile_to_index_lt agari_hai hwa
      have hcov2 : mcounts L (tile_to_index agari_hai) ≠ 0 := by
        have := hLc (tile_to_index agari_hai)
        rw [updc_other _ _ _ _ hne] at this
        have hz := hLz (tile_to_index agari_hai) hia
        omega
      obtain ⟨s, hsL, hsc⟩ := mcounts_pos_mem hcov2
      refine ⟨mentsuOfS s, ?_, ?_⟩
      · rw [hres]
        simp only [List.nil_append]
        rw [hLm]
        simpa using List.mem_map_of_mem mentsuOfS hsL
      · cases s with
        | tri q =>
          have hq : q = tile_to_index agari_hai := by
            by_contra hne2
            have : ¬(tile_to_index agari_hai = q) := fun hh => hne2 hh.symm
            simp [SMeld.cnt, this] at hsc
          subst hq
          simp only [mentsuOfS, koutsuM, mentsu_contains_tile]
          simp [tile_index_roundtrip agari_hai hwa]
        | seq q =>
          simp only [mentsuOfS, shuntsuM, mentsu_contains_tile]
          simp only [SMeld.cnt] at hsc
          by_cases e0 : tile_to_index agari_hai = q
          · have : index_to_tile q = agari_hai := by
              rw [← e0, tile_index_roundtrip agari_hai hwa]
            simp [this]
          · by_cases e1 : tile_to_index agari_hai = q + 1
            · have : index_to_tile (q + 1) = agari_hai := by
                rw [← e1, tile_index_roundtrip agari_hai hwa]
              simp [this]
            · by_cases e2 : tile_to_index agari_hai = q + 2
              · have : index_to_tile (q + 2) = agari_hai := by
                  rw [← e2, tile_index_roundtrip agari_hai hwa]
                simp [this]
              · simp [e0, e1, e2] at hsc
  obtain ⟨machi, hmachi⟩ := determine_wait_type_some
    ⟨[] ++ (searchResult c i).2.2, hlenA⟩ i agari_hai hwa hcontain
  exact ⟨_, mkPairResult_eq_of [] agari_hai c i _ machi harr hmachi⟩

/-- Claim C1: for every validated 14-tile hand with no declared calls,
`organize_hand` returns a Regular (YonmentsuIchiatama) outcome if and
only if the 14-tile count vector can be partitioned into four valid sets
plus one pair, and when no such partition exists it returns the
Irregular outcome carrying the full 34-slot count vector and the winning
tile. -/

theorem claim_C1 (input : UserInput)
    (hlen : input.hand_tiles.length = 14)
    (hopen : input.open_melds = [])
    (hkan : input.closed_kans = [])
    (hwf : ∀ t ∈ input.hand_tiles, WFHai t)
    (hval : validate_input input (countsOfTiles input.hand_tiles) = .ok ()) :
    ((∃ h, organize_hand input = .ok (.YonmentsuIchiatama h))
      ↔ HasStdPartition (countsOfTiles input.hand_tiles)) ∧
    (¬HasStdPartition (countsOfTiles input.hand_tiles) →
      organize_hand input
        = .ok (.Irregular (countsOfTiles input.hand_tiles) input.winning_tile)) := by
  have horg := organize_hand_no_calls input hval hopen hkan
  have hmhi : ∀ j, 34 ≤ j → countsOfTiles input.hand_tiles j = 0 :=
    fun j hj => countsOfTiles_hi _ hwf j hj
  have hwin : input.winning_tile ∈ input.hand_tiles :=
    (validate_input_ok_facts _ _ hval).1
  have hwawin : WFHai input.winning_tile := hwf _ hwin
  have hcov : countsOfTiles input.hand_tiles (tile_to_index input.winning_tile) ≠ 0 :=
    mem_counts_pos hwin
  constructor
  · constructor
    · rintro ⟨h, hreg⟩
      rw [horg, organize_post_no_decl] at hreg
      rcases htp : tryPairs (countsOfTiles input.hand_tiles) [] 4 input.winning_tile
          (List.range 34) with _ | r
      · rw [htp] at hreg
        simp at hreg
      · obtain ⟨i, hmem, ⟨h2, hs, hlen4⟩, _⟩ := tryPairs_some_elim htp
        exact partition_of_hit _ i (List.mem_range.mp hmem) hmhi h2 hs hlen4
    · intro hp
      obtain ⟨p, hp34, h2p, hsp, hlp⟩ := hit_of_partition _ hp
      rcases htp : tryPairs (countsOfTiles input.hand_tiles) [] 4 input.winning_tile
          (List.range 34) with _ | r
      · exfalso
        have := (tryPairs_none_iff _ _ _ _ _).mp htp p (List.mem_range.mpr hp34)
        exact this ⟨h2p, hsp, hlp⟩
      · obtain ⟨i, hmem, ⟨h2i, hsi, hli⟩, hr⟩ := tryPairs_some_elim htp
        obtain ⟨h, hmk⟩ := mkPairResult_regular input.winning_tile
          (countsOfTiles input.hand_tiles) i (List.mem_range.mp hmem) hwawin hcov hsi hli
        refine ⟨h, ?_⟩
        have he : organize_hand input = r := by
          rw [horg, organize_post_no_decl, htp]
        rw [he, hr, hmk]
  · intro hnp
    rcases htp : tryPairs (countsOfTiles input.hand_tiles) [] 4 input.winning_tile
        (List.range 34) with _ | r
    · rw [horg, organize_post_no_decl, htp]
    · exfalso
      obtain ⟨i, hmem, ⟨h2, hs, hlen4⟩, _⟩ := tryPairs_some_elim htp
      exact hnp (partition_of_hit _ i (List.mem_range.mp hmem) hmhi h2 hs hlen4)

theorem claim_C1_witness :
    (create_example_hand_input.hand_tiles.length = 14 ∧
     create_example_hand_input.open_melds = [] ∧
     create_example_hand_input.closed_kans = [] ∧
     (∀ t ∈ create_example_hand_input.hand_tiles, WFHai t) ∧
     validate_input create_example_hand_input
       (countsOfTiles create_example_hand_input.hand_tiles) = .ok ()) ∧
    (((∃ h, organize_hand create_example_hand_input = .ok (.YonmentsuIchiatama h))
      ↔ HasStdPartition (countsOfTiles create_example_hand_input.hand_tiles)) ∧
     (¬HasStdPartition (countsOfTiles create_example_hand_input.hand_tiles) →
      organize_hand create_example_hand_input
        = .ok (.Irregular (countsOfTiles create_example_hand_input.hand_tiles)
            create_example_hand_input.winning_tile))) :=
  ⟨⟨by decide, rfl, rfl, by decide, by rfl⟩,
   claim_C1 create_example_hand_input (by decide) rfl rfl (by decide) (by rfl)⟩

/-! ## Claim C2: multiset round trip -/

theorem toFour_some {l : List Mentsu} {arr : Mentsu4} (h : toFour l = some arr) :
    arr.val = l := by
  unfold toFour at h
  by_cases hl : l.length = 4
  · rw [dif_pos hl] at h
    have := Option.some.inj h
    rw [← this]
  · rw [dif_neg hl] at h
    exact absurd h (by simp)

theorem scanPair_some {c : Counts} {i : Nat} (h : scanPair c = some i) :
    i < 34 ∧ c i = 2 := by
  obtain ⟨_, h2, h3, _⟩ := scanIdx_some 34 0 i h
  exact ⟨by omega, by simpa using h3⟩

theorem sumCounts_cntM (m : Mentsu) (hwfm : WFMentsu m) :
    sumCounts (cntM m) = if m.mentsu_type = MentsuType.Kantsu then 4 else 3 := by
  rcases hmt : m.mentsu_type
  · -- Shuntsu
    unfold WFMentsu at hwfm
    rw [hmt] at hwfm
    obtain ⟨_, h27, _, _, _⟩ := hwfm
    simp only [cntM, hmt]
    rw [show (fun j => (if j = tile_to_index m.tiles0 then 1 else 0)
        + (if j = tile_to_index m.tiles0 + 1 then 1 else 0)
        + (if j = tile_to_index m.tiles0 + 2 then 1 else 0))
      = (fun j => ((if j = tile_to_index m.tiles0 then 1 else 0)
        + (if j = tile_to_index m.tiles0 + 1 then 1 else 0))
        + (if j = tile_to_index m.tiles0 + 2 then 1 else 0)) from rfl]
    rw [sumCounts_add, sumCounts_add]
    rw [sumCounts_indicator _ _ (by omega), sumCounts_indicator _ _ (by omega),
      sumCounts_indicator _ _ (by omega)]
    simp
  · -- Koutsu
    unfold WFMentsu at hwfm
    rw [hmt] at hwfm
    obtain ⟨hw0, _, _, _⟩ := hwfm
    simp only [cntM, hmt]
    rw [sumCounts_indicator _ _ (tile_to_index_lt _ hw0)]
    simp
  · -- Kantsu
    unfold WFMentsu at hwfm
    rw [hmt] at hwfm
    obtain ⟨hw0, _, _, _⟩ := hwfm
    simp only [cntM, hmt]
    rw [sumCounts_indicator _ _ (tile_to_index_lt _ hw0)]
    simp

theorem sumCounts_mcntList (L : List Mentsu) (hwfL : ∀ x ∈ L, WFMentsu x) :
    sumCounts (mcntList L) = 3 * L.length
      + (L.filter (fun m => decide (m.mentsu_type = MentsuType.Kantsu))).length := by
  induction L with
  | nil =>
    rw [sumCounts_congr (fun j _ => mcntList_nil j)]
    simp [sumCounts]
  | cons m rest ih =>
    have hm := hwfL m (List.mem_cons_self m rest)
    have hr : ∀ x ∈ rest, WFMentsu x := fun x hx => hwfL x (List.mem_cons_of_mem m hx)
    rw [sumCounts_congr (fun j _ => mcntList_cons m rest j), sumCounts_add, ih hr,
      sumCounts_cntM m hm]
    rw [List.filter_cons]
    by_cases hk : m.mentsu_type = MentsuType.Kantsu
    · simp [hk]
      omega
    · simp [hk]
      omega

theorem filter_kanMentsu (ks : List Hai) :
    ((ks.map kanMentsu).filter
      (fun m => decide (m.mentsu_type = MentsuType.Kantsu))).length = ks.length := by
  induction ks with
  | nil => rfl
  | cons t rest ih => simp [List.filter_cons, kanMentsu, ih]

theorem openMentsuOf_type (om : OpenMeld) :
    (openMentsuOf om).mentsu_type = om.mentsu_type := by
  rcases hmt : om.mentsu_type <;> simp [openMentsuOf, hmt]

theorem filter_openMentsuOf (os : List OpenMeld) :
    ((os.map openMentsuOf).filter
      (fun m => decide (m.mentsu_type = MentsuType.Kantsu))).length
    = (os.filter (fun om => decide (om.mentsu_type = MentsuType.Kantsu))).length := by
  induction os with
  | nil => rfl
  | cons om rest ih =>
    simp only [List.map_cons, List.filter_cons, openMentsuOf_type]
    by_cases hk : om.mentsu_type = MentsuType.Kantsu
    · simp [hk, ih]
    · simp [hk, ih]

theorem single_slot {c : Counts} {i : Nat} (hi : i < 34)
    (hsum : sumCounts c = 2) (hci : c i = 2) :
    ∀ j, j < 34 → j ≠ i → c j = 0 := by
  intro j hj hne
  rw [sumCounts_eq_finset] at hsum
  have hmem : i ∈ Finset.range 34 := Finset.mem_range.mpr hi
  have hsplit := Finset.sum_erase_add (Finset.range 34) c hmem
  rw [hsum, hci] at hsplit
  have hz : ∑ x ∈ (Finset.range 34).erase i, c x = 0 := by omega
  have := (Finset.sum_eq_zero_iff.mp hz) j
    (Finset.mem_erase.mpr ⟨hne, Finset.mem_range.mpr hj⟩)
  exact this

theorem count_coe (l : List Hai) (a : Hai) :
    Multiset.count a (l : Multiset Hai)
      = (l.filter (fun t => decide (t = a))).length := by
  induction l with
  | nil => simp
  | cons t rest ih =>
    rw [← Multiset.cons_coe, Multiset.count_cons, ih, List.filter_cons]
    by_cases he : t = a
    · subst he
      simp
    · have he2 : ¬(a = t) := fun hh => he hh.symm
      simp [he, he2]

theorem count_hand_eq_master (l : List Hai) (hwf : ∀ t ∈ l, WFHai t)
    (a : Hai) (ha : WFHai a) :
    Multiset.count a (l : Multiset Hai) = countsOfTiles l (tile_to_index a) := by
  rw [count_coe, countsOfTiles_apply]
  congr 1
  apply List.filter_congr
  intro t ht
  have hwt : WFHai t := hwf t ht
  apply decide_eq_decide.mpr
  constructor
  · intro he
    rw [he]
  · intro he
    exact tile_to_index_inj hwt ha he

theorem count_hand_zero (l : List Hai) (hwf : ∀ t ∈ l, WFHai t)
    (a : Hai) (ha : ¬WFHai a) :
    Multiset.count a (l : Multiset Hai) = 0 := by
  rw [Multiset.count_eq_zero]
  intro hmem
  exact ha (hwf a (by simpa using hmem))

theorem count_listSum (L : List (Multiset Hai)) (a : Hai) :
    Multiset.count a L.sum = (L.map (fun s => Multiset.count a s)).sum := by
  induction L with
  | nil => simp
  | cons s rest ih => simp [Multiset.count_add, ih]

theorem count_meldTiles_wf (m : Mentsu) (hwfm : WFMentsu m) (a : Hai) (ha : WFHai a) :
    Multiset.count a (meldTiles m) = cntM m (tile_to_index a) := by
  rcases hmt : m.mentsu_type
  · -- Shuntsu
    unfold WFMentsu at hwfm
    rw [hmt] at hwfm
    obtain ⟨hw0, h27, h9, ht1, ht2⟩ := hwfm
    have hw1 : WFHai m.tiles1 := by rw [ht1]; exact index_to_tile_wf _ (by omega)
    have hw2 : WFHai m.tiles2 := by rw [ht2]; exact index_to_tile_wf _ (by omega)
    have hi1 : tile_to_index m.tiles1 = tile_to_index m.tiles0 + 1 := by
      rw [ht1]; exact index_to_tile_index _ (by omega)
    have hi2 : tile_to_index m.tiles2 = tile_to_index m.tiles0 + 2 := by
      rw [ht2]; exact index_to_tile_index _ (by omega)
    have hcnt : Multiset.count a (meldTiles m)
        = (if a = m.tiles0 then 1 else 0) + (if a = m.tiles1 then 1 else 0)
          + (if a = m.tiles2 then 1 else 0) := by
      simp only [meldTiles, hmt, Multiset.count_cons, Multiset.count_zero]
      omega
    rw [hcnt]
    simp only [cntM, hmt]
    have e0 : (a = m.tiles0) ↔ (tile_to_index a = tile_to_index m.tiles0) :=
      ⟨fun he => by rw [he], fun he => tile_to_index_inj ha hw0 he⟩
    have e1 : (a = m.tiles1) ↔ (tile_to_index a = tile_to_index m.tiles0 + 1) := by
      rw [← hi1]
      exact ⟨fun he => by rw [he], fun he => tile_to_index_inj ha hw1 he⟩
    have e2 : (a = m.tiles2) ↔ (tile_to_index a = tile_to_index m.tiles0 + 2) := by
      rw [← hi2]
      exact ⟨fun he => by rw [he], fun he => tile_to_index_inj ha hw2 he⟩
    rw [if_congr e0 rfl rfl, if_congr e1 rfl rfl, if_congr e2 rfl rfl]
  · -- Koutsu
    unfold WFMentsu at hwfm
    rw [hmt] at hwfm
    obtain ⟨hw0, h1, h2, h3⟩ := hwfm
    have hcnt : Multiset.count a (meldTiles m) = if a = m.tiles0 then 3 else 0 := by
      simp only [meldTiles, hmt, Multiset.count_cons, Multiset.count_zero, h1, h2]
      by_cases he : a = m.tiles0 <;> simp [he]
    rw [hcnt]
    simp only [cntM, hmt]
    have e0 : (a = m.tiles0) ↔ (tile_to_index a = tile_to_index m.tiles0) :=
      ⟨fun he => by rw [he], fun he => tile_to_index_inj ha hw0 he⟩
    rw [if_congr e0 rfl rfl]
  · -- Kantsu
    unfold WFMentsu at hwfm
    rw [hmt] at hwfm
    obtain ⟨hw0, h1, h2, h3⟩ := hwfm
    have hcnt : Multiset.count a (meldTiles m) = if a = m.tiles0 then 4 else 0 := by
      simp only [meldTiles, hmt, Multiset.count_cons, Multiset.count_zero, h1, h2, h3]
      by_cases he : a = m.tiles0 <;> simp [he]
    rw [hcnt]
    simp only [cntM, hmt]
    have e0 : (a = m.tiles0) ↔ (tile_to_index a = tile_to_index m.tiles0) :=
      ⟨fun he => by rw [he], fun he => tile_to_index_inj ha hw0 he⟩
    rw [if_congr e0 rfl rfl]

theorem count_meldTiles_zero (m : Mentsu) (hwfm : WFMentsu m) (a : Hai)
    (ha : ¬WFHai a) :
    Multiset.count a (meldTiles m) = 0 := by
  rcases hmt : m.mentsu_type
  · -- Shuntsu
    unfold WFMentsu at hwfm
    rw [hmt] at hwfm
    obtain ⟨hw0, h27, h9, ht1, ht2⟩ := hwfm
    have hw1 : WFHai m.tiles1 := by rw [ht1]; exact index_to_tile_wf _ (by omega)
    have hw2 : WFHai m.tiles2 := by rw [ht2]; exact index_to_tile_wf _ (by omega)
    simp only [meldTiles, hmt, Multiset.count_cons, Multiset.count_zero]
    have e0 : ¬(a = m.tiles0) := fun he => ha (he ▸ hw0)
    have e1 : ¬(a = m.tiles1) := fun he => ha (he ▸ hw1)
    have e2 : ¬(a = m.tiles2) := fun he => ha (he ▸ hw2)
    simp [e0, e1, e2]
  · unfold WFMentsu at hwfm
    rw [hmt] at hwfm
    obtain ⟨hw0, h1, h2, _⟩ := hwfm
    simp only [meldTiles, hmt, Multiset.count_cons, Multiset.count_zero, h1, h2]
    have e0 : ¬(a = m.tiles0) := fun he => ha (he ▸ hw0)
    simp [e0]
  · unfold WFMentsu at hwfm
    rw [hmt] at hwfm
    obtain ⟨hw0, h1, h2, h3⟩ := hwfm
    simp only [meldTiles, hmt, Multiset.count_cons, Multiset.count_zero, h1, h2, h3]
    have e0 : ¬(a = m.tiles0) := fun he => ha (he ▸ hw0)
    simp [e0]

theorem except_cases {α : Type} (x : Except String α) :
    (∃ e, x = Except.error e) ∨ ∃ a, x = Except.ok a := by
  cases x with
  | error e => exact Or.inl ⟨e, rfl⟩
  | ok a => exact Or.inr ⟨a, rfl⟩

theorem organize_post_eq (input : UserInput) (master c2 : Counts) (m2 : List Mentsu) :
    organize_post input master c2 m2 =
      if 4 - m2.length = 0 then
        match scanPair c2 with
        | some i =>
          match toFour m2 with
          | some arr =>
            Except.ok (HandOrganization.YonmentsuIchiatama
              ⟨arr, (index_to_tile i, index_to_tile i), input.winning_tile, Machi.Tanki⟩)
          | none => Except.error "Hand parsing logic error: final_mentsu length not 4"
        | none =>
          if input.hand_tiles.length = 14 then
            match tryPairs c2 m2 (4 - m2.length) input.winning_tile (List.range 34) with
            | some r => r
            | none => Except.ok (HandOrganization.Irregular master input.winning_tile)
          else Except.error "Invalid hand: 4 open melds but no pair found."
      else
        match tryPairs c2 m2 (4 - m2.length) input.winning_tile (List.range 34) with
        | some r => r
        | none => Except.ok (HandOrganization.Irregular master input.winning_tile) := rfl

theorem caseB_spec {agari : Hai} {master c2 : Counts} {m2 : List Mentsu}
    {needed : Nat} {h : AgariHand}
    (hreg : (match tryPairs c2 m2 needed agari (List.range 34) with
              | some r => r
              | none => Except.ok (HandOrganization.Irregular master agari))
        = Except.ok (HandOrganization.YonmentsuIchiatama h)) :
    ∃ p, p < 34 ∧ h.atama = (index_to_tile p, index_to_tile p) ∧
      ∃ found : List Mentsu, h.mentsu.val = m2 ++ found ∧
        (∀ x ∈ found, WFMentsu x) ∧
        (∀ j, j < 34 → c2 j = (if j = p then 2 else 0) + mcntList found j) := by
  rcases htp : tryPairs c2 m2 needed agari (List.range 34) with _ | r
  · simp only [htp] at hreg
    exact absurd hreg (by simp)
  · simp only [htp] at hreg
    obtain ⟨i, hmem, ⟨hc2i, hsr, hlenf⟩, hr⟩ := tryPairs_some_elim htp
    rw [hr] at hreg
    rcases htf : toFour (m2 ++ (searchResult c2 i).2.2) with _ | arr
    · simp only [mkPairResult, htf] at hreg
      exact absurd hreg (by simp)
    · simp only [mkPairResult, htf] at hreg
      rcases hdw : determine_wait_type arr (index_to_tile i, index_to_tile i) agari
          with _ | machi
      · simp only [hdw] at hreg
        exact absurd hreg (by simp)
      · simp only [hdw] at hreg
        simp only [Except.ok.injEq, HandOrganization.YonmentsuIchiatama.injEq] at hreg
        have hi34 : i < 34 := List.mem_range.mp hmem
        have hat : h.atama = (index_to_tile i, index_to_tile i) := by rw [← hreg]
        have hval : h.mentsu.val = m2 ++ (searchResult c2 i).2.2 := by
          rw [← hreg]; exact toFour_some htf
        have hsr3 : find_mentsu_recursive (updc c2 i (c2 i - 2)) []
            = (true, (searchResult c2 i).2.1, (searchResult c2 i).2.2) := by
          have h1 : searchResult c2 i
              = (true, (searchResult c2 i).2.1, (searchResult c2 i).2.2) := by
            rw [← hsr]
          exact h1
        obtain ⟨L, hLwf, hmf, hcons, hcf⟩ := find_mentsu_recursive_true hsr3
        refine ⟨i, hi34, hat, (searchResult c2 i).2.2, hval, ?_, ?_⟩
        · intro x hx
          rw [hmf] at hx
          simp only [List.nil_append] at hx
          rcases List.mem_map.mp hx with ⟨s, hs, rfl⟩
          exact WFMentsu_mentsuOfS s (hLwf s hs)
        · intro j hj
          have hc := hcons j
          have hz := hcf j hj
          have hmc : mcntList (searchResult c2 i).2.2 j = mcounts L j := by
            rw [hmf]
            simp only [List.nil_append]
            exact mcntList_map_mentsuOfS L hLwf j
          rw [hmc]
          by_cases hji : j = i
          · subst hji
            rw [updc_same] at hc
            rw [if_pos rfl]
            omega
          · rw [updc_other _ _ _ _ hji] at hc
            rw [if_neg hji]
            omega

theorem organize_regular_spec (input : UserInput) (h : AgariHand)
    (hreg : organize_hand input = Except.ok (HandOrganization.YonmentsuIchiatama h))
    (hwf : ∀ t ∈ input.hand_tiles, WFHai t)
    (hwfk : ∀ t ∈ input.closed_kans, WFHai t)
    (hwfo : ∀ om ∈ input.open_melds, WFHai om.representative_tile) :
    ∃ p, p < 34 ∧ h.atama = (index_to_tile p, index_to_tile p) ∧
      (∀ x ∈ h.mentsu.val, WFMentsu x) ∧
      (∀ j, j < 34 → countsOfTiles input.hand_tiles j
          = (if j = p then 2 else 0) + mcntList h.mentsu.val j) := by
  unfold organize_hand at hreg
  rcases except_unit_cases (validate_input input (countsOfTiles input.hand_tiles))
      with ⟨e, he⟩ | hok
  · rw [he] at hreg
    exact absurd hreg (by simp)
  · simp only [hok] at hreg
    rcases except_cases (processKans input.closed_kans
        (countsOfTiles input.hand_tiles) []) with ⟨e, he1⟩ | ⟨⟨c1, m1⟩, he1⟩
    · simp only [he1] at hreg
      exact absurd hreg (by simp)
    · simp only [he1] at hreg
      rcases except_cases (processOpenMelds input.open_melds c1 m1)
          with ⟨e, he2⟩ | ⟨⟨c2, m2⟩, he2⟩
      · simp only [he2] at hreg
        exact absurd hreg (by simp)
      · simp only [he2] at hreg
        obtain ⟨hm1, hcons1⟩ := processKans_ok _ _ _ _ _ he1
        obtain ⟨hm2, hcons2, hwfopen⟩ := processOpenMelds_ok _ _ _ _ _ he2 hwfo
        have hwfm2 : ∀ x ∈ m2, WFMentsu x := by
          intro x hx
          rw [hm2, hm1] at hx
          simp only [List.nil_append] at hx
          rcases List.mem_append.mp hx with hx | hx
          · rcases List.mem_map.mp hx with ⟨t, ht, rfl⟩
            exact kanMentsu_wf t (hwfk t ht)
          · exact hwfopen x hx
        have hconsv : ∀ j, countsOfTiles input.hand_tiles j = mcntList m2 j + c2 j := by
          intro j
          have h1 := hcons1 j
          have h2 := hcons2 j
          rw [hm2, hm1]
          simp only [List.nil_append]
          rw [mcntList_append]
          omega
        rw [organize_post_eq] at hreg
        by_cases hneed : 4 - m2.length = 0
        · rw [if_pos hneed] at hreg
          rcases hsp : scanPair c2 with _ | i
          · simp only [hsp] at hreg
            by_cases h14 : input.hand_tiles.length = 14
            · rw [if_pos h14] at hreg
              obtain ⟨p, hp, hat, found, hvalB, hwfF, hcnt⟩ := caseB_spec hreg
              refine ⟨p, hp, hat, ?_, ?_⟩
              · intro x hx
                rw [hvalB] at hx
                rcases List.mem_append.mp hx with hx | hx
                · exact hwfm2 x hx
                · exact hwfF x hx
              · intro j hj
                rw [hvalB, mcntList_append]
                have h1 := hconsv j
                have h2 := hcnt j hj
                omega
            · rw [if_neg h14] at hreg
              exact absurd hreg (by simp)
          · simp only [hsp] at hreg
            rcases htf : toFour m2 with _ | arr
            · simp only [htf] at hreg
              exact absurd hreg (by simp)
            · simp only [htf] at hreg
              simp only [Except.ok.injEq,
                HandOrganization.YonmentsuIchiatama.injEq] at hreg
              obtain ⟨hi34, hci⟩ := scanPair_some hsp
              have hatama : h.atama = (index_to_tile i, index_to_tile i) := by
                rw [← hreg]
              have hval : h.mentsu.val = m2 := by
                rw [← hreg]; exact toFour_some htf
              have hlen4 : m2.length = 4 := by
                rw [← toFour_some htf]; exact arr.property
              have hKfilter : (m2.filter
                    (fun m => decide (m.mentsu_type = MentsuType.Kantsu))).length
                  = totalKans input := by
                rw [hm2, hm1]
                simp only [List.nil_append]
                rw [List.filter_append, List.length_append, filter_kanMentsu,
                  filter_openMentsuOf]
                rfl
              have hsum_m2 : sumCounts (mcntList m2) = 3 * 4 + totalKans input := by
                rw [sumCounts_mcntList m2 hwfm2, hlen4, hKfilter]
              have hsum_master : sumCounts (countsOfTiles input.hand_tiles)
                  = input.hand_tiles.length := sumCounts_countsOfTiles _ hwf
              have hsum_split : sumCounts (countsOfTiles input.hand_tiles)
                  = sumCounts (mcntList m2) + sumCounts c2 := by
                rw [← sumCounts_add]
                exact sumCounts_congr (fun j _ => hconsv j)
              obtain ⟨hwmem, hcap, hcalls, hlens⟩ := validate_input_ok_facts input _ hok
              have hK4 : totalKans input ≤ 4 := by
                have hfl := List.length_filter_le
                  (fun m => decide (m.mentsu_type = MentsuType.Kantsu)) input.open_melds
                unfold totalKans
                omega
              have hsumc2 : sumCounts c2 = 2 := by
                rcases hlens with hl | ⟨hl, hk0⟩ <;> omega
              have hz := single_slot hi34 hsumc2 hci
              refine ⟨i, hi34, hatama, ?_, ?_⟩
              · intro x hx
                rw [hval] at hx
                exact hwfm2 x hx
              · intro j hj
                rw [hval]
                have h1 := hconsv j
                by_cases hji : j = i
                · subst hji
                  rw [if_pos rfl]
                  omega
                · rw [if_neg hji]
                  have h0 := hz j hj hji
                  omega
        · rw [if_neg hneed] at hreg
          obtain ⟨p, hp, hat, found, hvalB, hwfF, hcnt⟩ := caseB_spec hreg
          refine ⟨p, hp, hat, ?_, ?_⟩
          · intro x hx
            rw [hvalB] at hx
            rcases List.mem_append.mp hx with hx | hx
            · exact hwfm2 x hx
            · exact hwfF x hx
          · intro j hj
            rw [hvalB, mcntList_append]
            have h1 := hconsv j
            have h2 := hcnt j hj
            omega

/-- Claim C2: for every input on which `organize_hand` returns a Regular
(YonmentsuIchiatama) result — on well-formed tiles — the multiset union
of the tiles of the four melds (three tiles for a sequence or triplet,
four for a quad) plus the two pair tiles equals the multiset of the
input's hand tiles exactly: no tile gained or lost. -/

theorem claim_C2 (input : UserInput) (h : AgariHand)
    (hreg : organize_hand input = Except.ok (HandOrganization.YonmentsuIchiatama h))
    (hwf : ∀ t ∈ input.hand_tiles, WFHai t)
    (hwfk : ∀ t ∈ input.closed_kans, WFHai t)
    (hwfo : ∀ om ∈ input.open_melds, WFHai om.representative_tile) :
    (h.mentsu.val.map meldTiles).sum + (h.atama.1 ::ₘ h.atama.2 ::ₘ 0)
      = (input.hand_tiles : Multiset Hai) := by
  obtain ⟨p, hp, hat, hwfM, hcnt⟩ := organize_regular_spec input h hreg hwf hwfk hwfo
  refine Multiset.ext.mpr fun a => ?_
  rw [Multiset.count_add]
  by_cases ha : WFHai a
  · have hlt := tile_to_index_lt a ha
    have hhand : Multiset.count a (input.hand_tiles : Multiset Hai)
        = countsOfTiles input.hand_tiles (tile_to_index a) :=
      count_hand_eq_master _ hwf a ha
    have hmelds : Multiset.count a ((h.mentsu.val.map meldTiles).sum)
        = mcntList h.mentsu.val (tile_to_index a) := by
      rw [count_listSum, List.map_map]
      unfold mcntList
      congr 1
      apply List.map_congr_left
      intro m hm
      simp only [Function.comp_apply]
      exact count_meldTiles_wf m (hwfM m hm) a ha
    have hpair : Multiset.count a (h.atama.1 ::ₘ h.atama.2 ::ₘ 0)
        = if tile_to_index a = p then 2 else 0 := by
      rw [hat]
      simp only [Multiset.count_cons, Multiset.count_zero]
      by_cases he : tile_to_index a = p
      · have he2 : a = index_to_tile p :=
          tile_to_index_inj ha (index_to_tile_wf p hp)
            (by rw [index_to_tile_index p hp]; exact he)
        rw [if_pos he, if_pos he2]
      · have he2 : ¬(a = index_to_tile p) := fun hh =>
          he (by rw [hh]; exact index_to_tile_index p hp)
        rw [if_neg he, if_neg he2]
    rw [hhand, hmelds, hpair, hcnt (tile_to_index a) hlt]
    exact Nat.add_comm _ _
  · have h1 : Multiset.count a ((h.mentsu.val.map meldTiles).sum) = 0 := by
      rw [count_listSum, List.map_map]
      apply List.sum_eq_zero
      intro x hx
      rcases List.mem_map.mp hx with ⟨m, hm, rfl⟩
      simp only [Function.comp_apply]
      exact count_meldTiles_zero m (hwfM m hm) a ha
    have h2 : Multiset.count a (h.atama.1 ::ₘ h.atama.2 ::ₘ 0) = 0 := by
      rw [hat]
      have he2 : ¬(a = index_to_tile p) := fun hh =>
        ha (hh ▸ index_to_tile_wf p hp)
      simp [Multiset.count_cons, he2]
    have h3 : Multiset.count a (input.hand_tiles : Multiset Hai) = 0 :=
      count_hand_zero _ hwf a ha
    rw [h1, h2, h3]

theorem claim_C2_witness :
    (organize_hand create_example_hand_input
        = Except.ok (HandOrganization.YonmentsuIchiatama example_agari_hand)) ∧
    ((example_agari_hand.mentsu.val.map meldTiles).sum
          + (example_agari_hand.atama.1 ::ₘ example_agari_hand.atama.2 ::ₘ 0)
        = (create_example_hand_input.hand_tiles : Multiset Hai)) :=
  ⟨by rfl,
    claim_C2 create_example_hand_input example_agari_hand (by rfl)
      (by decide) (by decide) (by decide)⟩
